import Mathlib

/-!
Verification of the observables library core (`src/core.mjs`).

The development shallowly embeds the dispatch engine of the library:

* `JSVal` models the JavaScript values that flow through the engine, with
  their truthiness (`truthy`) and the `.error` field access (`errField`)
  used by `endWithHandler`.
* `Iteration` models the iteration objects `{done, value}`.
* Model A (`World`, `exec`, `runOps`) embeds `TxStep.next/complete/error/iter`,
  `runEvent` (including its re-entrancy queue and drain loop, translated
  statement by statement) and `TxStep.abandon` for a step `S` together with
  its child `C` (the child has no grandchild, like the terminal step built
  by `endWithHandler`).  The child's controller is an arbitrary program of
  commands (`Cmd`), so a handler may synchronously re-emit on `S`, abandon
  either step, or throw, exactly as user handlers may in the source.
* Model B (`HeapB`, `abandonB`, `mkChain3`, `cancelB`) embeds the
  parent/child chain wiring of `TxObservable.subscribe`, the teardown
  collection walk of `TxStep.abandon` over a whole pipeline, and
  `TxSubscription`.
* The broadcaster model (`LRec`, `notifyWalk`, `broadcast`) embeds
  `notifySubscribers` and the live `SyncSubject.subscribe`.
* `endController` embeds the controller installed by `endWithHandler`.
-/

/-- Model of a JavaScript value as far as the engine inspects values:
truthiness and the `error` field of the `DidError` wrapper `{error: e}`. -/
inductive JSVal where
  | jsUndefined : JSVal
  | jsNull : JSVal
  | jsBool : Bool → JSVal
  | jsNum : Int → JSVal
  | jsStr : String → JSVal
  | errObj : JSVal → JSVal
  | obj : Nat → JSVal
deriving DecidableEq, Repr

/-- JavaScript truthiness of a `JSVal`.  The `DidError` wrapper is an object
and therefore always truthy (core.mjs lines 6-10). -/
def truthy : JSVal → Bool
  | .jsUndefined => false
  | .jsNull => false
  | .jsBool b => b
  | .jsNum n => n != 0
  | .jsStr s => s != ""
  | .errObj _ => true
  | .obj _ => true

/-- The `value.error` field access performed by `endWithHandler`:
defined on the `{error: e}` wrapper, `undefined` on anything else. -/
def errField : JSVal → JSVal
  | .errObj e => e
  | _ => .jsUndefined

/-- An iteration object `{done, value}` (core.mjs lines 13-18). -/
structure Iteration where
  done : Bool
  value : JSVal
deriving DecidableEq, Repr

/-- The `TxState` lifecycle enum (core.mjs lines 66-73). -/
inductive TxState where
  | Open : TxState
  | Closing : TxState
  | Closed : TxState
deriving DecidableEq, Repr

/-- A node of a step's pending-event queue: the iteration plus the sequence
index assigned at enqueue time (core.mjs lines 224-228; `nextEvent` links are
represented by the position in the `sQueue` list). -/
structure QNode where
  iteration : Iteration
  index : Nat
deriving DecidableEq, Repr

/-!
## Model A: one step `S` delivering to its child `C`

`World` carries the mutable fields of `S` (a `TxStep` with a child and no
parent, like the outermost step of a pipeline) and of its child `C` (a
`TxStep` with no child of its own, like the terminal step built by
`endWithHandler`).

The queue representation: `sQueueActive` is `S._queueEnd !== null` (a drain
loop owns the step).  During a drain the loop variable `active` is passed
around explicitly and `sQueue` holds the linked nodes *after* `active` up to
`_queueEnd`; re-entrant `runEvent` calls append to its tail exactly as
`pending.nextEvent = queueNode` does.
-/

/-- The mutable state of the two steps of model A. -/
structure World where
  /-- `S._state` -/
  sState : TxState
  /-- `S._queueEnd !== null`: a drain loop is in charge of `S`. -/
  sQueueActive : Bool
  /-- the queued nodes after the drain's current node -/
  sQueue : List QNode
  /-- `S._nextIndex` -/
  sNextIndex : Nat
  /-- `S._child !== null`: `S` still links to `C` -/
  sChild : Bool
  /-- `S.onClose`, identified by a numeric tag when present -/
  sOnClose : Option Nat
  /-- `C._state` -/
  cState : TxState
  /-- `C._parent === S`: `C` still links back to `S` -/
  cParent : Bool
  /-- `C.controller !== null` -/
  cController : Bool
  /-- `C.onClose` -/
  cOnClose : Option Nat
deriving DecidableEq, Repr

/-- Observable events of a run of model A. -/
inductive Ev where
  /-- a queue node was created for the iteration with the given index
  (core.mjs lines 224-228) -/
  | accepted : Iteration → Nat → Ev
  /-- the child's controller was invoked with `(iteration, index)`
  (core.mjs line 256) -/
  | delivered : Iteration → Nat → Ev
  /-- the `console.error` diagnostic for emitting on a non-open step
  (core.mjs line 212) -/
  | diag : Ev
  /-- an `onClose` teardown callback ran (core.mjs line 187) -/
  | closer : Nat → Ev
  /-- the catch path handed the thrown value to the child as an Error
  iteration and the child accepted it (core.mjs line 263) -/
  | childErrorIter : JSVal → Ev
  /-- `uncaughtErrorWhileRunning` was called (core.mjs lines 513-516) -/
  | unhandled : JSVal → Ev
deriving DecidableEq, Repr

/-- A command a child controller can perform synchronously while being
invoked: re-emit on `S`, abandon either step, or throw. -/
inductive Cmd where
  | emitNext : JSVal → Cmd
  | emitComplete : Cmd
  | emitError : JSVal → Cmd
  | emitIter : Iteration → Cmd
  | abandonChildCmd : Cmd
  | abandonStepCmd : Cmd
  | throwJs : JSVal → Cmd
deriving DecidableEq, Repr

/-- The child controller as a strategy: given the delivered iteration and
index, the commands it performs (possibly ending in a throw). -/
def Behavior : Type := Iteration → Nat → List Cmd

/-- `TxStep.abandon` invoked on `S` (core.mjs lines 164-192).  `S` has no
parent, so the walk visits only `S`: its `onClose` is collected (but not
cleared — the source never nulls `onClose`), `_queueEnd` is nulled,
the state becomes `Closed` and the links are cleared.  The collected
closers run afterwards.  If `S` is already `Closed` nothing happens.
The drain loop's local chain of already-linked nodes (`sQueue`) survives,
exactly as the loop's local `nextEvent` references survive in the source. -/
def abandonS (w : World) : World × List Ev :=
  if w.sState = .Closed then (w, [])
  else
    ({ w with
        sState := .Closed
        sQueueActive := false
        sChild := false },
      (w.sOnClose.map Ev.closer).toList)

/-- `TxStep.abandon` invoked on the child `C`.  The walk visits `C`, then
follows `C._parent`: when the parent link is still set it visits `S` as
well — regardless of `S`'s state, since only the state of the step the
method was called on is guarded (core.mjs line 165).  Closers are pushed
child-first and executed in reverse order, so `S`'s closer runs first. -/
def abandonChildCascade (w : World) : World × List Ev :=
  if w.cState = .Closed then (w, [])
  else
    if w.cParent then
      ({ w with
          cState := .Closed
          cParent := false
          sState := .Closed
          sQueueActive := false
          sChild := false },
        (w.sOnClose.map Ev.closer).toList ++ (w.cOnClose.map Ev.closer).toList)
    else
      ({ w with cState := .Closed, cParent := false },
        (w.cOnClose.map Ev.closer).toList)

/-- `runEvent` invoked on the child `C` by the catch path `child.error(error)`
(core.mjs line 263).  The child has no child of its own, so after the state
check and the `Open → Closing` transition the call returns at
`if (!child) return` without queueing. -/
def childError (w : World) (e : JSVal) : World × List Ev :=
  if w.cState ≠ .Open then (w, [.diag])
  else ({ w with cState := .Closing }, [.childErrorIter e])

/-- The three mutually re-entrant activities of `runEvent`
(core.mjs lines 209-273): an emit on `S`, one pass of the drain loop with
its current `active` node, and the execution of the child controller's
commands. -/
inductive Req where
  | ev : Iteration → Req
  | drainReq : QNode → Req
  | cmds : List Cmd → Req

/-- The interpreter of `runEvent` and the child controller, fuelled.

`.ev it` is `runEvent(S, it)` (core.mjs lines 209-241): the `Open`
precondition with its diagnostic, the `Open → Closing` transition for a
terminal iteration *before* anything else, the `if (!child) return` exit
before an index is assigned, the node creation with `_nextIndex++`, and the
append-if-pending / become-the-drain choice on `_queueEnd`.

`.drainReq active` is one pass of the drain loop (core.mjs lines 242-272).
`wasTail` records whether `active.nextEvent` was `null` when destructured at
the top of the loop — *before* the handler runs, which is why re-entrant
appends made during the handler are not picked up when `active` was the
tail.  A terminal iteration triggers `step.abandon()` before the handler is
invoked.  If the handler throws, the step abandons itself and the failure is
redirected to the child when the child is still `Open`, otherwise reported
via `uncaughtErrorWhileRunning`; the loop then exits (`active` stays null).
On exit `_queueEnd` is nulled and the dropped local chain is discarded.

`.cmds cs` runs the child controller's body: each emit is a re-entrant
`runEvent` on `S`, abandons call `TxStep.abandon`, and `throwJs` aborts the
body, propagating the thrown value to the drain's catch. -/
def exec (beh : Behavior) : Nat → Req → World → Option (World × List Ev × Option JSVal)
  | 0, _, _ => none
  | n + 1, .ev it, w =>
    if w.sState ≠ .Open then some (w, [.diag], none)
    else
      let w := if it.done then { w with sState := .Closing } else w
      if ¬ w.sChild then some (w, [], none)
      else
        let node : QNode := ⟨it, w.sNextIndex⟩
        let w := { w with sNextIndex := w.sNextIndex + 1 }
        if w.sQueueActive then
          some ({ w with sQueue := w.sQueue ++ [node] }, [.accepted it node.index], none)
        else
          match exec beh n (.drainReq node) { w with sQueueActive := true, sQueue := [] } with
          | none => none
          | some (w1, ev1, _) => some (w1, .accepted it node.index :: ev1, none)
  | n + 1, .drainReq active, w =>
    let wasTail := w.sQueue.isEmpty
    let abRes := if active.iteration.done then abandonS w else (w, [])
    let w1 := abRes.1
    let evA := abRes.2
    if ¬ w1.cController then
      some ({ w1 with sQueueActive := false, sQueue := [] }, evA, none)
    else
      match exec beh n (.cmds (beh active.iteration active.index)) w1 with
      | none => none
      | some (w2, evC, some e) =>
        let abRes2 := abandonS w2
        let w3 := abRes2.1
        if w3.cState = .Open then
          let ceRes := childError w3 e
          some ({ ceRes.1 with sQueueActive := false, sQueue := [] },
            evA ++ .delivered active.iteration active.index :: evC ++ abRes2.2 ++ ceRes.2, none)
        else
          some ({ w3 with sQueueActive := false, sQueue := [] },
            evA ++ .delivered active.iteration active.index :: evC ++ abRes2.2 ++ [.unhandled e], none)
      | some (w2, evC, none) =>
        if wasTail then
          some ({ w2 with sQueueActive := false, sQueue := [] },
            evA ++ .delivered active.iteration active.index :: evC, none)
        else
          match w2.sQueue with
          | [] =>
            some ({ w2 with sQueueActive := false, sQueue := [] },
              evA ++ .delivered active.iteration active.index :: evC, none)
          | next :: rest =>
            match exec beh n (.drainReq next) { w2 with sQueue := rest } with
            | none => none
            | some (w4, ev4, _) =>
              some (w4, evA ++ .delivered active.iteration active.index :: evC ++ ev4, none)
  | _ + 1, .cmds [], w => some (w, [], none)
  | n + 1, .cmds (c :: cs), w =>
    match c with
    | .throwJs e => some (w, [], some e)
    | .emitNext v =>
      match exec beh n (.ev ⟨false, v⟩) w with
      | none => none
      | some (w1, ev1, _) =>
        match exec beh n (.cmds cs) w1 with
        | none => none
        | some (w2, ev2, th) => some (w2, ev1 ++ ev2, th)
    | .emitComplete =>
      match exec beh n (.ev ⟨true, .jsUndefined⟩) w with
      | none => none
      | some (w1, ev1, _) =>
        match exec beh n (.cmds cs) w1 with
        | none => none
        | some (w2, ev2, th) => some (w2, ev1 ++ ev2, th)
    | .emitError v =>
      match exec beh n (.ev ⟨true, .errObj v⟩) w with
      | none => none
      | some (w1, ev1, _) =>
        match exec beh n (.cmds cs) w1 with
        | none => none
        | some (w2, ev2, th) => some (w2, ev1 ++ ev2, th)
    | .emitIter it =>
      match exec beh n (.ev it) w with
      | none => none
      | some (w1, ev1, _) =>
        match exec beh n (.cmds cs) w1 with
        | none => none
        | some (w2, ev2, th) => some (w2, ev1 ++ ev2, th)
    | .abandonChildCmd =>
      let r := abandonChildCascade w
      match exec beh n (.cmds cs) r.1 with
      | none => none
      | some (w2, ev2, th) => some (w2, r.2 ++ ev2, th)
    | .abandonStepCmd =>
      let r := abandonS w
      match exec beh n (.cmds cs) r.1 with
      | none => none
      | some (w2, ev2, th) => some (w2, r.2 ++ ev2, th)

/-- A top-level operation performed by the code around the step: an emit on
`S` (`next`/`complete`/`error`/`iter` all go through `runEvent`), an
unsubscribe-style abandon of the child, or a direct abandon of `S`. -/
inductive TopOp where
  | emit : Iteration → TopOp
  | unsubChild : TopOp
  | abandonStepOp : TopOp

/-- Runs a list of top-level operations, accumulating the event trace. -/
def runOps (beh : Behavior) (fuel : Nat) : List TopOp → World → Option (World × List Ev)
  | [], w => some (w, [])
  | op :: rest, w =>
    let step :=
      match op with
      | .emit it =>
        match exec beh fuel (.ev it) w with
        | none => none
        | some (w1, ev1, _) => some (w1, ev1)
      | .unsubChild => some (abandonChildCascade w)
      | .abandonStepOp => some (abandonS w)
    match step with
    | none => none
    | some (w1, ev1) =>
      match runOps beh fuel rest w1 with
      | none => none
      | some (w2, ev2) => some (w2, ev1 ++ ev2)

/-- The freshly wired pair of steps: both open, linked both ways
(`TxStep` constructor, core.mjs lines 82-122), with teardown callbacks
`0` on `S` and `1` on `C`. -/
def init2 : World :=
  { sState := .Open
    sQueueActive := false
    sQueue := []
    sNextIndex := 0
    sChild := true
    sOnClose := some 0
    cState := .Open
    cParent := true
    cController := true
    cOnClose := some 1 }


/-!
## Model B: a materialized pipeline chain and its abandon cascade

`TxObservable.subscribe` (core.mjs lines 443-469) builds one `TxStep` per
pipeline stage: the terminal step `base` first (child `null`), then each
`new TxStep(top)` wires the previously built step as its child and itself as
that step's parent.  So step `i`'s parent is step `i + 1` and the highest
index is the source-most step.  `abandonB` is `TxStep.abandon`
(core.mjs lines 164-192) on this heap.
-/

/-- The fields of a `TxStep` that the abandon cascade touches. -/
structure StepB where
  bState : TxState
  bParent : Option Nat
  bChild : Option Nat
  bQueueActive : Bool
  bOnClose : Option Nat
deriving DecidableEq, Repr

/-- The materialized pipeline: step `i` of the chain lives at position `i`. -/
abbrev HeapB : Type := List StepB

/-- Heap update at a position. -/
def setStep (h : HeapB) (i : Nat) (s : StepB) : HeapB :=
  h.set i s

/-- The collection walk of `TxStep.abandon` (core.mjs lines 171-182): starting
from a step, follow `_parent` links, pushing each visited step's `onClose`
and clearing its `_queueEnd`, state and links.  Returns the updated heap and
the closers in push order (walk order, consumer-side first).  Fuelled; the
fuel `h.length` suffices for the acyclic chains `subscribe` builds. -/
def walkCollect : Nat → HeapB → Option Nat → HeapB × List Nat
  | _, h, none => (h, [])
  | 0, h, some _ => (h, [])
  | fuel + 1, h, some i =>
    match h.get? i with
    | none => (h, [])
    | some tx =>
      let h1 := setStep h i
        { bState := .Closed, bParent := none, bChild := none,
          bQueueActive := false, bOnClose := tx.bOnClose }
      let r := walkCollect fuel h1 tx.bParent
      (r.1, tx.bOnClose.toList ++ r.2)

/-- `TxStep.abandon` (core.mjs lines 164-192) on the chain heap: a no-op when
the step is already `Closed`; otherwise the collection walk runs and the
collected closers are executed in reverse push order
(`let i = closers.length; while (i) closers[--i]()`), i.e. root-most
(source) first.  The second component is the execution order. -/
def abandonB (h : HeapB) (i : Nat) : HeapB × List Nat :=
  match h.get? i with
  | none => (h, [])
  | some tx =>
    if tx.bState = .Closed then (h, [])
    else
      let r := walkCollect h.length h (some i)
      (r.1, r.2.reverse)

/-- The chain `subscribe` materializes for a three-stage pipeline A→B→C with
A the source: step 0 is the consumer-side step (teardown `c`), step 1 the
middle step (teardown `b`), step 2 the source step (teardown `a`);
parent links run toward the source, child links toward the consumer. -/
def mkChain3 (a b c : Nat) : HeapB :=
  [ { bState := .Open, bParent := some 1, bChild := none,
      bQueueActive := false, bOnClose := some c },
    { bState := .Open, bParent := some 2, bChild := some 0,
      bQueueActive := false, bOnClose := some b },
    { bState := .Open, bParent := none, bChild := some 1,
      bQueueActive := false, bOnClose := some a } ]

/-- The state of a `TxSubscription` (core.mjs lines 403-421): `unsubscribe`
replaces itself by `noop` on the first call. -/
structure SubB where
  subActive : Bool
deriving DecidableEq, Repr

/-- `TxSubscription.unsubscribe`: on the first call it swaps itself for
`noop` and abandons the chain from the consumer-side step 0; afterwards it
is `noop`.  Returns the subscription, the heap and the closer run order. -/
def cancelB (s : SubB) (h : HeapB) : SubB × HeapB × List Nat :=
  if s.subActive then
    let r := abandonB h 0
    (⟨false⟩, r.1, r.2)
  else
    (s, h, [])

/-!
## The broadcaster (`SyncSubject`)

`notifySubscribers` (core.mjs lines 326-367) walks the listener list for one
event.  Listener records (`Child`, core.mjs lines 43-64) hold a handler
(`null` after the user unsubscribed), the `addedAfter` guard iteration, and
the link to the next record.  The walk drops leading dead records, splices
out dead records behind the walk by updating `prevChild.nextChild`, skips
records whose `addedAfter` guard has not been caught up with, and invokes
live handlers.

A handler may, during its invocation, unsubscribe listeners (set their
handler to `null`) or call the live `SyncSubject.subscribe`.  The pure walk
is a zipper: `front` is the relinked prefix up to and including `prevChild`;
`limbo` holds traversed records after `prevChild` that are still linked from
it but would be dropped by a splice (`prevChild.nextChild = nextChild` jumps
over them); the remainder is the untraversed suffix.  A splice with
`prevChild === null` dereferences `null` in the source, modelled as `none`.
-/

/-- A listener record: identifier, whether the handler is still set, and the
`addedAfter` guard (an iteration identity, modelled by the event tag). -/
structure LRec where
  rid : Nat
  live : Bool
  addedAfter : Option Nat
deriving DecidableEq, Repr

/-- What a listener's handler does during one invocation. -/
inductive BEff where
  /-- unsubscribe the listener with the given identifier (sets its record's
  handler to `null`; the record itself is not removed) -/
  | unsub : Nat → BEff
  /-- call the live `SyncSubject.subscribe` (core.mjs lines 315-318): its
  body builds `new TxObservable()` and discards it, so nothing is added to
  the listener list and `undefined` is returned -/
  | subscribeCall : Nat → BEff
deriving DecidableEq, Repr

/-- A broadcast behavior: the effects a listener performs when invoked for an
event tag. -/
def BBehavior : Type := Nat → Nat → List BEff

/-- Mark a listener record dead (unsubscribed) wherever it is. -/
def markDead (target : Nat) (l : List LRec) : List LRec :=
  l.map fun r => if r.rid = target then { r with live := false } else r

/-- The live `SyncSubject.subscribe` (core.mjs lines 315-318): `new
TxObservable()` is constructed and discarded; the listener list is
untouched. -/
def subscribeLive (l : List LRec) (_newRid : Nat) : List LRec := l

/-- Apply one handler effect to all list segments of the walk zipper. -/
def applyEff (eff : BEff) :
    List LRec × List LRec × List LRec → List LRec × List LRec × List LRec
  | (front, limbo, rest) =>
    match eff with
    | .unsub t => (markDead t front, markDead t limbo, markDead t rest)
    | .subscribeCall newRid =>
      (subscribeLive front newRid, limbo, subscribeLive rest newRid)

/-- Apply a handler invocation's effects in order. -/
def applyEffs (effs : List BEff) (z : List LRec × List LRec × List LRec) :
    List LRec × List LRec × List LRec :=
  effs.foldl (fun z e => applyEff e z) z

/-- The main walk of `notifySubscribers` (core.mjs lines 340-366), after the
leading dead records have been skipped.  `front` ends at `prevChild`
(`none` exactly when `prevChild === null`); `havePrev` distinguishes that.
Returns the relinked list and the invoked listener ids, or `none` for the
`prevChild.nextChild` null dereference. -/
def notifyLoop (beh : BBehavior) (tag idx : Nat) :
    Nat → List LRec → List LRec → Bool → List LRec → Option (List LRec × List Nat)
  | 0, front, limbo, _, rest => some (front ++ limbo ++ rest, [])
  | _ + 1, front, limbo, _haveICannotUse, [] => some (front ++ limbo, [])
  | fuel + 1, front, limbo, havePrev, child :: rest =>
    if ¬ child.live then
      if havePrev then
        match notifyLoop beh tag idx fuel front [] true rest with
        | none => none
        | some (l, ids) => some (l, ids)
      else none
    else
      match child.addedAfter with
      | some guard =>
        if guard = tag then
          notifyLoop beh tag idx fuel (front ++ limbo ++ [{ child with addedAfter := none }])
            [] true rest
        else
          notifyLoop beh tag idx fuel front (limbo ++ [child]) havePrev rest
      | none =>
        let z := applyEffs (beh child.rid tag) (front, limbo ++ [child], rest)
        match notifyLoop beh tag idx fuel (z.1 ++ z.2.1) [] true z.2.2 with
        | none => none
        | some (l, ids) => some (l, child.rid :: ids)

/-- `notifySubscribers` (core.mjs lines 326-367): skip and physically drop
leading records without a handler, then run the walk. -/
def notifySubscribers (beh : BBehavior) (children : List LRec) (tag idx : Nat) :
    Option (List LRec × List Nat) :=
  let trimmed := children.dropWhile fun r => ¬ r.live
  notifyLoop beh tag idx (trimmed.length + 1) [] [] false trimmed

/-- Broadcast a sequence of events (tag list; the index is the position),
threading the listener list; collects the invocation lists per event. -/
def broadcast (beh : BBehavior) (children : List LRec) (tags : List Nat) (idx0 : Nat) :
    Option (List LRec × List (List Nat)) :=
  match tags with
  | [] => some (children, [])
  | t :: ts =>
    match notifySubscribers beh children t idx0 with
    | none => none
    | some (l, ids) =>
      match broadcast beh l ts (idx0 + 1) with
      | none => none
      | some (l2, rest) => some (l2, ids :: rest)

/-!
## The terminal step built by `endWithHandler`
-/

/-- What the controller installed by `endWithHandler`
(core.mjs lines 532-556) does with one incoming iteration. -/
inductive EndAction where
  | callNext : JSVal → EndAction
  | callComplete : EndAction
  | callError : JSVal → EndAction
  | reportUnhandled : JSVal → EndAction
  | noAction : EndAction
deriving DecidableEq, Repr

/-- The controller of the terminal step (core.mjs lines 543-553): a terminal
iteration is discriminated purely by the truthiness of its `value`; a truthy
value is routed to `onError` (or to `uncaughtErrorWhileRunning` when no
`onError` was supplied) passing `value.error`, a falsy one to
`onComplete?.()`.  Non-terminal iterations go to `onNext?.(value)`. -/
def endController (onNext onComplete onError : Bool) (it : Iteration) : EndAction :=
  if it.done then
    if truthy it.value then
      if onError then .callError (errField it.value)
      else .reportUnhandled (errField it.value)
    else
      if onComplete then .callComplete else .noAction
  else
    if onNext then .callNext it.value else .noAction

/-- `TxStep.error` (core.mjs lines 143-145) wraps the error value in the
always-truthy `DidError` object before running the event. -/
def errWrap (e : JSVal) : Iteration := ⟨true, .errObj e⟩

/-- `TxStep.complete` (core.mjs lines 135-137) runs a terminal iteration
whose value is `undefined`. -/
def completeIter : Iteration := ⟨true, .jsUndefined⟩

/-!
## Measures over runs of model A
-/

/-- Number of terminal (done) iterations delivered to the child in a trace. -/
def cntDD (tr : List Ev) : Nat :=
  tr.countP fun e => match e with | .delivered it _ => it.done | _ => false

/-- The indices of the delivered iterations, in trace order. -/
def delivIdx (tr : List Ev) : List Nat :=
  tr.filterMap fun e => match e with | .delivered _ i => some i | _ => none

/-- The indices assigned at queue-node creation, in trace order. -/
def accIdx (tr : List Ev) : List Nat :=
  tr.filterMap fun e => match e with | .accepted _ i => some i | _ => none

/-- Number of terminal nodes sitting in a queue. -/
def qDone (q : List QNode) : Nat := q.countP fun n => n.iteration.done

/-- 1 while the step can still accept a terminal iteration. -/
def stateBit (w : World) : Nat := if w.sState = .Open then 1 else 0

/-- Potential: terminal nodes queued plus the possibility to accept one. -/
def phiW (w : World) : Nat := qDone w.sQueue + stateBit w

/-- Whether a queue node is terminal. -/
def dnQ (a : QNode) : Nat := if a.iteration.done then 1 else 0

/-- Potential of a pending activity: a drain pass additionally owns its
current node. -/
def phiReq : Req → World → Nat
  | .ev _, w => phiW w
  | .cmds _, w => phiW w
  | .drainReq a, w => dnQ a + phiW w

/-- Rank of a lifecycle state; transitions only ever increase it. -/
def rankS : TxState → Nat
  | .Open => 0
  | .Closing => 1
  | .Closed => 2

/-- The link invariant: a cleared link implies its step has been closed, so
while both steps are alive the mutual links are still in place. -/
def LinkInv (w : World) : Prop :=
  (w.sChild = false → w.sState = .Closed) ∧ (w.cParent = false → w.cState = .Closed)

/-- The indices of the nodes sitting in a queue. -/
def qIdx (q : List QNode) : List Nat := q.map QNode.index

/-- Queue well-formedness: indices strictly increase along the queue and are
all below the step's next index. -/
def QOK (w : World) : Prop :=
  List.Chain' (· < ·) (qIdx w.sQueue) ∧ ∀ q ∈ w.sQueue, q.index < w.sNextIndex

/-- While a drain loop owns the step (or the step is no longer open), a
re-entrant emit can only append to the queue, never start a nested drain. -/
def DGuard (w : World) : Prop := w.sQueueActive = true ∨ w.sState ≠ .Open

/-- Lower bound on the indices an activity can deliver. -/
def lbReq : Req → World → Nat
  | .ev _, w => w.sNextIndex
  | .cmds _, w => w.sNextIndex
  | .drainReq a, _ => a.index

/-- Precondition of a drain pass: its current node was dequeued before the
remaining queue, and the pass owns the step. -/
def drainPre : Req → World → Prop
  | .drainReq a, w => a.index < w.sNextIndex ∧ (∀ q ∈ w.sQueue, a.index < q.index) ∧ DGuard w
  | _, _ => True

/-- Whether the activity is an emit or a controller body (not a drain pass). -/
def notDrain : Req → Prop
  | .drainReq _ => False
  | _ => True

lemma cntDD_nil : cntDD [] = 0 := rfl

lemma cntDD_append (a b : List Ev) : cntDD (a ++ b) = cntDD a + cntDD b :=
  List.countP_append _ _ _

lemma cntDD_closers (o : Option Nat) : cntDD (o.map Ev.closer).toList = 0 := by
  cases o <;> rfl

lemma rankS_le_closed (s : TxState) : rankS s ≤ rankS .Closed := by
  cases s <;> simp [rankS]

lemma stateBit_le_one (w : World) : stateBit w ≤ 1 := by
  unfold stateBit; split <;> omega

lemma abandonS_phi (w : World) :
    phiW (abandonS w).1 ≤ phiW w ∧ cntDD (abandonS w).2 = 0 ∧
      (abandonS w).1.sQueue = w.sQueue ∧
      rankS w.sState ≤ rankS (abandonS w).1.sState ∧
      (abandonS w).1.cState = w.cState ∧
      (abandonS w).1.sNextIndex = w.sNextIndex := by
  by_cases hc : w.sState = .Closed
  · simp [abandonS, hc, cntDD_nil]
  · refine ⟨?_, ?_, ?_, ?_, ?_, ?_⟩ <;>
      simp [abandonS, hc, phiW, stateBit, cntDD_closers, rankS_le_closed]

lemma abandonChild_phi (w : World) :
    phiW (abandonChildCascade w).1 ≤ phiW w ∧ cntDD (abandonChildCascade w).2 = 0 ∧
      rankS w.sState ≤ rankS (abandonChildCascade w).1.sState ∧
      rankS w.cState ≤ rankS (abandonChildCascade w).1.cState ∧
      (abandonChildCascade w).1.sNextIndex = w.sNextIndex ∧
      (abandonChildCascade w).1.sQueue = w.sQueue := by
  by_cases hc : w.cState = .Closed
  · simp [abandonChildCascade, hc, cntDD_nil]
  · by_cases hp : w.cParent = true
    · refine ⟨?_, ?_, ?_, ?_, ?_, ?_⟩ <;>
        simp [abandonChildCascade, hc, hp, phiW, stateBit, cntDD_append, cntDD_closers,
          rankS_le_closed]
    · refine ⟨?_, ?_, ?_, ?_, ?_, ?_⟩ <;>
        simp [abandonChildCascade, hc, hp, phiW, stateBit, cntDD_closers, rankS_le_closed]

lemma childError_phi (w : World) (e : JSVal) :
    phiW (childError w e).1 = phiW w ∧ cntDD (childError w e).2 = 0 ∧
      (childError w e).1.sState = w.sState ∧
      rankS w.cState ≤ rankS (childError w e).1.cState ∧
      (childError w e).1.sNextIndex = w.sNextIndex ∧
      (childError w e).1.sQueue = w.sQueue := by
  by_cases hc : w.cState = .Open
  · refine ⟨?_, ?_, ?_, ?_, ?_, ?_⟩ <;>
      simp [childError, hc, phiW, stateBit, cntDD, rankS]
  · simp [childError, hc, cntDD]

lemma abandonS_fields (w : World) :
    (abandonS w).1.cController = w.cController ∧ (abandonS w).1.cParent = w.cParent ∧
      (abandonS w).1.cOnClose = w.cOnClose ∧ (abandonS w).1.sOnClose = w.sOnClose := by
  unfold abandonS; split <;> simp

lemma childError_fields (w : World) (e : JSVal) :
    (childError w e).1.cController = w.cController ∧
      (childError w e).1.sQueueActive = w.sQueueActive ∧
      (childError w e).1.sChild = w.sChild := by
  unfold childError; split <;> simp

lemma cntDD_cons_delivered (a : QNode) (tr : List Ev) :
    cntDD (Ev.delivered a.iteration a.index :: tr) = cntDD tr + dnQ a := by
  simp [cntDD, List.countP_cons, dnQ]

lemma stateBit_le_phiW (w : World) : stateBit w ≤ phiW w := by
  simp [phiW]

lemma phiW_clear (x : World) :
    phiW { x with sQueueActive := false, sQueue := [] } = stateBit x := by
  simp [phiW, qDone, stateBit]

lemma phiW_clear2 (x : World) (b : Bool) :
    phiW { x with sQueueActive := false, sQueue := [], cController := b } = stateBit x := by
  simp [phiW, qDone, stateBit]

/-- The terminal-event potential never increases across any activity of the
interpreter, each delivered terminal iteration consumes one unit of it, and
the lifecycle states of both steps only ever advance. -/
lemma exec_phi_bound (beh : Behavior) :
    ∀ (f : Nat) (req : Req) (w w' : World) (ev : List Ev) (th : Option JSVal),
      exec beh f req w = some (w', ev, th) →
      cntDD ev + phiW w' ≤ phiReq req w ∧
        rankS w.sState ≤ rankS w'.sState ∧ rankS w.cState ≤ rankS w'.cState := by
  intro f
  induction f with
  | zero => intro req w w' ev th h; simp [exec] at h
  | succ n ih =>
    intro req w w' ev th h
    cases req with
    | ev it =>
      by_cases hs : w.sState = .Open
      · by_cases hd : it.done = true
        · by_cases hc : w.sChild = true
          · by_cases hqa : w.sQueueActive = true
            · simp only [exec, hs, hd, hc, hqa, ne_eq, not_true_eq_false, not_false_eq_true, Bool.not_eq_true, Bool.false_eq_true, Bool.true_eq_false, if_true, if_false, ite_true, ite_false, reduceIte] at h
              simp only [Option.some.injEq, Prod.mk.injEq] at h
              obtain ⟨rfl, rfl, rfl⟩ := h
              refine ⟨?_, ?_, ?_⟩ <;>
                simp [cntDD, phiW, phiReq, stateBit, qDone, hs, hd, rankS,
                  List.countP_append, List.countP_cons] <;> omega
            · simp only [exec, hs, hd, hc, hqa, ne_eq, not_true_eq_false, not_false_eq_true, Bool.not_eq_true, Bool.false_eq_true, Bool.true_eq_false, if_true, if_false, ite_true, ite_false, reduceIte] at h
              split at h
              · exact absurd h (by simp)
              · rename_i w1 ev1 th1 heq
                simp only [Option.some.injEq, Prod.mk.injEq] at h
                obtain ⟨rfl, rfl, rfl⟩ := h
                obtain ⟨h1, h2, h3⟩ := ih _ _ _ _ _ heq
                refine ⟨?_, ?_, ?_⟩
                · simp only [cntDD, phiReq, phiW, dnQ, qDone, stateBit, hd, hs,
                    List.countP_cons] at *
                  simp at h1 ⊢
                  omega
                · simp only [rankS, hs] at h2 ⊢
                  omega
                · exact h3
          · simp only [exec, hs, hd, hc, ne_eq, not_true_eq_false, not_false_eq_true, Bool.not_eq_true, Bool.false_eq_true, Bool.true_eq_false, if_true, if_false, ite_true, ite_false, reduceIte] at h
            simp only [Option.some.injEq, Prod.mk.injEq] at h
            obtain ⟨rfl, rfl, rfl⟩ := h
            refine ⟨?_, ?_, ?_⟩ <;>
              simp [cntDD, phiW, phiReq, stateBit, qDone, hs, hd, rankS] <;> omega
        · by_cases hc : w.sChild = true
          · by_cases hqa : w.sQueueActive = true
            · simp only [exec, hs, hd, hc, hqa, ne_eq, not_true_eq_false, not_false_eq_true, Bool.not_eq_true, Bool.false_eq_true, Bool.true_eq_false, if_true, if_false, ite_true, ite_false, reduceIte] at h
              simp only [Option.some.injEq, Prod.mk.injEq] at h
              obtain ⟨rfl, rfl, rfl⟩ := h
              refine ⟨?_, ?_, ?_⟩ <;>
                simp [cntDD, phiW, phiReq, stateBit, qDone, hs, hd, rankS,
                  List.countP_append, List.countP_cons] <;> omega
            · simp only [exec, hs, hd, hc, hqa, ne_eq, not_true_eq_false, not_false_eq_true, Bool.not_eq_true, Bool.false_eq_true, Bool.true_eq_false, if_true, if_false, ite_true, ite_false, reduceIte] at h
              split at h
              · exact absurd h (by simp)
              · rename_i w1 ev1 th1 heq
                simp only [Option.some.injEq, Prod.mk.injEq] at h
                obtain ⟨rfl, rfl, rfl⟩ := h
                obtain ⟨h1, h2, h3⟩ := ih _ _ _ _ _ heq
                refine ⟨?_, ?_, ?_⟩
                · simp only [cntDD, phiReq, phiW, dnQ, qDone, stateBit, hd, hs,
                    List.countP_cons] at *
                  simp at h1 ⊢
                  omega
                · simp only [rankS, hs] at h2 ⊢
                  omega
                · exact h3
          · simp only [exec, hs, hd, hc, ne_eq, not_true_eq_false, not_false_eq_true, Bool.not_eq_true, Bool.false_eq_true, Bool.true_eq_false, if_true, if_false, ite_true, ite_false, reduceIte] at h
            simp only [Option.some.injEq, Prod.mk.injEq] at h
            obtain ⟨rfl, rfl, rfl⟩ := h
            refine ⟨?_, ?_, ?_⟩ <;>
              simp [cntDD, phiW, phiReq, stateBit, qDone, hs, hd, rankS] <;> omega
      · simp only [exec, hs, ne_eq, not_true_eq_false, not_false_eq_true, Bool.not_eq_true, Bool.false_eq_true, Bool.true_eq_false, if_true, if_false, ite_true, ite_false, reduceIte] at h
        simp only [Option.some.injEq, Prod.mk.injEq] at h
        obtain ⟨rfl, rfl, rfl⟩ := h
        refine ⟨?_, le_refl _, le_refl _⟩
        simp [cntDD, phiReq]
    | drainReq a =>
      by_cases hdn : a.iteration.done = true
      all_goals simp only [exec, hdn, ne_eq, not_true_eq_false, not_false_eq_true, Bool.not_eq_true, Bool.false_eq_true, Bool.true_eq_false, if_true, if_false, ite_true, ite_false, reduceIte] at h
      case pos =>
        obtain ⟨hph1, hcd1, hq1, hr1, hc1, hn1⟩ := abandonS_phi w
        have hc1r := congrArg rankS hc1
        have hda : dnQ a = 1 := by simp [dnQ, hdn]
        by_cases hcc : (abandonS w).1.cController = true
        · simp only [hcc, ne_eq, not_true_eq_false, not_false_eq_true, Bool.not_eq_true, Bool.false_eq_true, Bool.true_eq_false, if_true, if_false, ite_true, ite_false, reduceIte] at h
          split at h
          · exact absurd h (by simp)
          · rename_i w2 evC e heq
            obtain ⟨hph2, hr2s, hr2c⟩ := ih _ _ _ _ _ heq
            simp only [phiReq] at hph2
            obtain ⟨hph3, hcd3, hq3, hr3, hc3, hn3⟩ := abandonS_phi w2
            have hc3r := congrArg rankS hc3
            split at h
            · rename_i hopen
              obtain ⟨hph4, hcd4, hs4, hr4, hn4, hq4⟩ := childError_phi (abandonS w2).1 e
              have hs4r := congrArg rankS hs4
              simp only [Option.some.injEq, Prod.mk.injEq] at h
              obtain ⟨rfl, rfl, rfl⟩ := h
              have hclr := phiW_clear (childError (abandonS w2).1 e).1
              have hsb := stateBit_le_phiW (childError (abandonS w2).1 e).1
              refine ⟨?_, ?_, ?_⟩
              · dsimp only
                simp only [phiReq, cntDD_append, cntDD_cons_delivered, cntDD_nil, phiW_clear, phiW_clear2]
                omega
              · show rankS w.sState ≤ rankS ((childError (abandonS w2).1 e).1).sState
                omega
              · show rankS w.cState ≤ rankS ((childError (abandonS w2).1 e).1).cState
                omega
            · simp only [Option.some.injEq, Prod.mk.injEq] at h
              obtain ⟨rfl, rfl, rfl⟩ := h
              have hclr := phiW_clear (abandonS w2).1
              have hsb := stateBit_le_phiW (abandonS w2).1
              have hcdu : cntDD [Ev.unhandled e] = 0 := rfl
              refine ⟨?_, ?_, ?_⟩
              · dsimp only
                simp only [phiReq, cntDD_append, cntDD_cons_delivered, cntDD_nil, phiW_clear, phiW_clear2]
                omega
              · show rankS w.sState ≤ rankS ((abandonS w2).1).sState
                omega
              · show rankS w.cState ≤ rankS ((abandonS w2).1).cState
                omega
          · rename_i w2 evC heq
            obtain ⟨hph2, hr2s, hr2c⟩ := ih _ _ _ _ _ heq
            simp only [phiReq] at hph2
            split at h
            · simp only [Option.some.injEq, Prod.mk.injEq] at h
              obtain ⟨rfl, rfl, rfl⟩ := h
              have hclr := phiW_clear w2
              have hsb := stateBit_le_phiW w2
              refine ⟨?_, ?_, ?_⟩
              · dsimp only
                simp only [phiReq, cntDD_append, cntDD_cons_delivered, cntDD_nil, phiW_clear, phiW_clear2]
                omega
              · show rankS w.sState ≤ rankS (w2).sState
                omega
              · show rankS w.cState ≤ rankS (w2).cState
                omega
            · split at h
              · simp only [Option.some.injEq, Prod.mk.injEq] at h
                obtain ⟨rfl, rfl, rfl⟩ := h
                have hclr := phiW_clear w2
                have hsb := stateBit_le_phiW w2
                refine ⟨?_, ?_, ?_⟩
                · dsimp only
                  simp only [phiReq, cntDD_append, cntDD_cons_delivered, cntDD_nil, phiW_clear, phiW_clear2]
                  omega
                · show rankS w.sState ≤ rankS (w2).sState
                  omega
                · show rankS w.cState ≤ rankS (w2).cState
                  omega
              · rename_i next rest hq2
                split at h
                · exact absurd h (by simp)
                · rename_i w4 ev4 th4 heq4
                  simp only [Option.some.injEq, Prod.mk.injEq] at h
                  obtain ⟨rfl, rfl, rfl⟩ := h
                  obtain ⟨hph5, hr5s, hr5c⟩ := ih _ _ _ _ _ heq4
                  simp only [phiReq] at hph5
                  have hbs : rankS ({ w2 with sQueue := rest } : World).sState = rankS w2.sState := rfl
                  have hbc : rankS ({ w2 with sQueue := rest } : World).cState = rankS w2.cState := rfl
                  have hqx : phiW w2 = dnQ next + phiW ({ w2 with sQueue := rest } : World) := by
                    simp [phiW, qDone, hq2, List.countP_cons, dnQ, stateBit]
                    split <;> omega
                  refine ⟨?_, ?_, ?_⟩
                  · dsimp only
                    simp only [phiReq, cntDD_append, cntDD_cons_delivered, cntDD_nil]
                    omega
                  · omega
                  · omega
        · simp only [hcc, ne_eq, not_true_eq_false, not_false_eq_true, Bool.not_eq_true, Bool.false_eq_true, Bool.true_eq_false, if_true, if_false, ite_true, ite_false, reduceIte] at h
          simp only [Option.some.injEq, Prod.mk.injEq] at h
          obtain ⟨rfl, rfl, rfl⟩ := h
          have hclr := phiW_clear (abandonS w).1
          have hsb := stateBit_le_phiW (abandonS w).1
          refine ⟨?_, ?_, ?_⟩
          · dsimp only
            simp only [phiReq, cntDD_append, cntDD_cons_delivered, cntDD_nil, phiW_clear, phiW_clear2]
            omega
          · show rankS w.sState ≤ rankS ((abandonS w).1).sState
            omega
          · show rankS w.cState ≤ rankS ((abandonS w).1).cState
            omega
      case neg =>
        have hda : dnQ a = 0 := by simp [dnQ, hdn]
        by_cases hcc : w.cController = true
        · simp only [hcc, ne_eq, not_true_eq_false, not_false_eq_true, Bool.not_eq_true, Bool.false_eq_true, Bool.true_eq_false, if_true, if_false, ite_true, ite_false, reduceIte] at h
          split at h
          · exact absurd h (by simp)
          · rename_i w2 evC e heq
            obtain ⟨hph2, hr2s, hr2c⟩ := ih _ _ _ _ _ heq
            simp only [phiReq] at hph2
            obtain ⟨hph3, hcd3, hq3, hr3, hc3, hn3⟩ := abandonS_phi w2
            have hc3r := congrArg rankS hc3
            split at h
            · rename_i hopen
              obtain ⟨hph4, hcd4, hs4, hr4, hn4, hq4⟩ := childError_phi (abandonS w2).1 e
              have hs4r := congrArg rankS hs4
              simp only [Option.some.injEq, Prod.mk.injEq] at h
              obtain ⟨rfl, rfl, rfl⟩ := h
              have hclr := phiW_clear (childError (abandonS w2).1 e).1
              have hsb := stateBit_le_phiW (childError (abandonS w2).1 e).1
              refine ⟨?_, ?_, ?_⟩
              · dsimp only
                simp only [phiReq, cntDD_append, cntDD_cons_delivered, cntDD_nil, phiW_clear, phiW_clear2]
                omega
              · show rankS w.sState ≤ rankS ((childError (abandonS w2).1 e).1).sState
                omega
              · show rankS w.cState ≤ rankS ((childError (abandonS w2).1 e).1).cState
                omega
            · simp only [Option.some.injEq, Prod.mk.injEq] at h
              obtain ⟨rfl, rfl, rfl⟩ := h
              have hclr := phiW_clear (abandonS w2).1
              have hsb := stateBit_le_phiW (abandonS w2).1
              have hcdu : cntDD [Ev.unhandled e] = 0 := rfl
              refine ⟨?_, ?_, ?_⟩
              · dsimp only
                simp only [phiReq, cntDD_append, cntDD_cons_delivered, cntDD_nil, phiW_clear, phiW_clear2]
                omega
              · show rankS w.sState ≤ rankS ((abandonS w2).1).sState
                omega
              · show rankS w.cState ≤ rankS ((abandonS w2).1).cState
                omega
          · rename_i w2 evC heq
            obtain ⟨hph2, hr2s, hr2c⟩ := ih _ _ _ _ _ heq
            simp only [phiReq] at hph2
            split at h
            · simp only [Option.some.injEq, Prod.mk.injEq] at h
              obtain ⟨rfl, rfl, rfl⟩ := h
              have hclr := phiW_clear w2
              have hsb := stateBit_le_phiW w2
              refine ⟨?_, ?_, ?_⟩
              · dsimp only
                simp only [phiReq, cntDD_append, cntDD_cons_delivered, cntDD_nil, phiW_clear, phiW_clear2]
                omega
              · show rankS w.sState ≤ rankS (w2).sState
                omega
              · show rankS w.cState ≤ rankS (w2).cState
                omega
            · split at h
              · simp only [Option.some.injEq, Prod.mk.injEq] at h
                obtain ⟨rfl, rfl, rfl⟩ := h
                have hclr := phiW_clear w2
                have hsb := stateBit_le_phiW w2
                refine ⟨?_, ?_, ?_⟩
                · dsimp only
                  simp only [phiReq, cntDD_append, cntDD_cons_delivered, cntDD_nil, phiW_clear, phiW_clear2]
                  omega
                · show rankS w.sState ≤ rankS (w2).sState
                  omega
                · show rankS w.cState ≤ rankS (w2).cState
                  omega
              · rename_i next rest hq2
                split at h
                · exact absurd h (by simp)
                · rename_i w4 ev4 th4 heq4
                  simp only [Option.some.injEq, Prod.mk.injEq] at h
                  obtain ⟨rfl, rfl, rfl⟩ := h
                  obtain ⟨hph5, hr5s, hr5c⟩ := ih _ _ _ _ _ heq4
                  simp only [phiReq] at hph5
                  have hbs : rankS ({ w2 with sQueue := rest } : World).sState = rankS w2.sState := rfl
                  have hbc : rankS ({ w2 with sQueue := rest } : World).cState = rankS w2.cState := rfl
                  have hqx : phiW w2 = dnQ next + phiW ({ w2 with sQueue := rest } : World) := by
                    simp [phiW, qDone, hq2, List.countP_cons, dnQ, stateBit]
                    split <;> omega
                  refine ⟨?_, ?_, ?_⟩
                  · dsimp only
                    simp only [phiReq, cntDD_append, cntDD_cons_delivered, cntDD_nil]
                    omega
                  · omega
                  · omega
        · simp only [hcc, ne_eq, not_true_eq_false, not_false_eq_true, Bool.not_eq_true, Bool.false_eq_true, Bool.true_eq_false, if_true, if_false, ite_true, ite_false, reduceIte] at h
          simp only [Option.some.injEq, Prod.mk.injEq] at h
          obtain ⟨rfl, rfl, rfl⟩ := h
          have hclr := phiW_clear w
          have hsb := stateBit_le_phiW w
          refine ⟨?_, ?_, ?_⟩
          · dsimp only
            simp only [phiReq, cntDD_append, cntDD_cons_delivered, cntDD_nil, phiW_clear, phiW_clear2]
            omega
          · show rankS w.sState ≤ rankS (w).sState
            omega
          · show rankS w.cState ≤ rankS (w).cState
            omega
    | cmds cs =>
      cases cs with
      | nil =>
        simp only [exec, Option.some.injEq, Prod.mk.injEq] at h
        obtain ⟨rfl, rfl, rfl⟩ := h
        exact ⟨by simp [cntDD_nil, phiReq], le_refl _, le_refl _⟩
      | cons c rest =>
        cases c with
        | throwJs e =>
          simp only [exec, Option.some.injEq, Prod.mk.injEq] at h
          obtain ⟨rfl, rfl, rfl⟩ := h
          exact ⟨by simp [cntDD_nil, phiReq], le_refl _, le_refl _⟩
        | emitNext v =>
          simp only [exec] at h
          split at h
          · exact absurd h (by simp)
          · rename_i w1 ev1 th1 heq1
            split at h
            · exact absurd h (by simp)
            · rename_i w2 ev2 th2 heq2
              simp only [Option.some.injEq, Prod.mk.injEq] at h
              obtain ⟨rfl, rfl, rfl⟩ := h
              obtain ⟨p1, r1s, r1c⟩ := ih _ _ _ _ _ heq1
              obtain ⟨p2, r2s, r2c⟩ := ih _ _ _ _ _ heq2
              simp only [phiReq] at p1 p2 ⊢
              exact ⟨by simp only [cntDD_append]; omega, le_trans r1s r2s, le_trans r1c r2c⟩
        | emitComplete =>
          simp only [exec] at h
          split at h
          · exact absurd h (by simp)
          · rename_i w1 ev1 th1 heq1
            split at h
            · exact absurd h (by simp)
            · rename_i w2 ev2 th2 heq2
              simp only [Option.some.injEq, Prod.mk.injEq] at h
              obtain ⟨rfl, rfl, rfl⟩ := h
              obtain ⟨p1, r1s, r1c⟩ := ih _ _ _ _ _ heq1
              obtain ⟨p2, r2s, r2c⟩ := ih _ _ _ _ _ heq2
              simp only [phiReq] at p1 p2 ⊢
              exact ⟨by simp only [cntDD_append]; omega, le_trans r1s r2s, le_trans r1c r2c⟩
        | emitError v =>
          simp only [exec] at h
          split at h
          · exact absurd h (by simp)
          · rename_i w1 ev1 th1 heq1
            split at h
            · exact absurd h (by simp)
            · rename_i w2 ev2 th2 heq2
              simp only [Option.some.injEq, Prod.mk.injEq] at h
              obtain ⟨rfl, rfl, rfl⟩ := h
              obtain ⟨p1, r1s, r1c⟩ := ih _ _ _ _ _ heq1
              obtain ⟨p2, r2s, r2c⟩ := ih _ _ _ _ _ heq2
              simp only [phiReq] at p1 p2 ⊢
              exact ⟨by simp only [cntDD_append]; omega, le_trans r1s r2s, le_trans r1c r2c⟩
        | emitIter it =>
          simp only [exec] at h
          split at h
          · exact absurd h (by simp)
          · rename_i w1 ev1 th1 heq1
            split at h
            · exact absurd h (by simp)
            · rename_i w2 ev2 th2 heq2
              simp only [Option.some.injEq, Prod.mk.injEq] at h
              obtain ⟨rfl, rfl, rfl⟩ := h
              obtain ⟨p1, r1s, r1c⟩ := ih _ _ _ _ _ heq1
              obtain ⟨p2, r2s, r2c⟩ := ih _ _ _ _ _ heq2
              simp only [phiReq] at p1 p2 ⊢
              exact ⟨by simp only [cntDD_append]; omega, le_trans r1s r2s, le_trans r1c r2c⟩
        | abandonChildCmd =>
          simp only [exec] at h
          split at h
          · exact absurd h (by simp)
          · rename_i w2 ev2 th2 heq2
            simp only [Option.some.injEq, Prod.mk.injEq] at h
            obtain ⟨rfl, rfl, rfl⟩ := h
            obtain ⟨p1, c1, r1s, r1c, n1, q1⟩ := abandonChild_phi w
            obtain ⟨p2, r2s, r2c⟩ := ih _ _ _ _ _ heq2
            simp only [phiReq] at p2 ⊢
            exact ⟨by simp only [cntDD_append]; omega, le_trans r1s r2s, le_trans r1c r2c⟩
        | abandonStepCmd =>
          simp only [exec] at h
          split at h
          · exact absurd h (by simp)
          · rename_i w2 ev2 th2 heq2
            simp only [Option.some.injEq, Prod.mk.injEq] at h
            obtain ⟨rfl, rfl, rfl⟩ := h
            obtain ⟨p1, c1, q1, r1s, e1, n1⟩ := abandonS_phi w
            have r1c := congrArg rankS e1
            obtain ⟨p2, r2s, r2c⟩ := ih _ _ _ _ _ heq2
            simp only [phiReq] at p2 ⊢
            refine ⟨by simp only [cntDD_append]; omega, le_trans r1s r2s, ?_⟩
            omega

/-- Terminal-potential bound over a whole run. -/
lemma runOps_phi_bound (beh : Behavior) (f : Nat) :
    ∀ (ops : List TopOp) (w w' : World) (tr : List Ev),
      runOps beh f ops w = some (w', tr) → cntDD tr + phiW w' ≤ phiW w := by
  intro ops
  induction ops with
  | nil =>
    intro w w' tr h
    simp only [runOps, Option.some.injEq, Prod.mk.injEq] at h
    obtain ⟨rfl, rfl⟩ := h
    simp [cntDD_nil]
  | cons op rest ih =>
    intro w w' tr h
    cases op with
    | emit it =>
      simp only [runOps] at h
      cases hex : exec beh f (.ev it) w with
      | none => simp [hex] at h
      | some r =>
        obtain ⟨w1, ev1, th1⟩ := r
        simp only [hex] at h
        cases hro : runOps beh f rest w1 with
        | none => simp [hro] at h
        | some r2 =>
          obtain ⟨w2, ev2⟩ := r2
          simp only [hro, Option.some.injEq, Prod.mk.injEq] at h
          obtain ⟨rfl, rfl⟩ := h
          have h1 := (exec_phi_bound beh f _ _ _ _ _ hex).1
          simp only [phiReq] at h1
          have h2 := ih _ _ _ hro
          simp only [cntDD_append]
          omega
    | unsubChild =>
      simp only [runOps] at h
      cases hro : runOps beh f rest (abandonChildCascade w).1 with
      | none => simp [hro] at h
      | some r2 =>
        obtain ⟨w2, ev2⟩ := r2
        simp only [hro, Option.some.injEq, Prod.mk.injEq] at h
        obtain ⟨rfl, rfl⟩ := h
        obtain ⟨p1, c1, _, _, _, _⟩ := abandonChild_phi w
        have h2 := ih _ _ _ hro
        simp only [cntDD_append]
        omega
    | abandonStepOp =>
      simp only [runOps] at h
      cases hro : runOps beh f rest (abandonS w).1 with
      | none => simp [hro] at h
      | some r2 =>
        obtain ⟨w2, ev2⟩ := r2
        simp only [hro, Option.some.injEq, Prod.mk.injEq] at h
        obtain ⟨rfl, rfl⟩ := h
        obtain ⟨p1, c1, _, _, _, _⟩ := abandonS_phi w
        have h2 := ih _ _ _ hro
        simp only [cntDD_append]
        omega

/-- `runEvent` on a non-open step: the diagnostic is reported, the state is
untouched and nothing is queued or delivered. -/
lemma runEvent_nonOpen_noop (beh : Behavior) (f : Nat) (it : Iteration) (w : World)
    (hs : w.sState ≠ .Open) :
    exec beh (f + 1) (.ev it) w = some (w, [.diag], none) := by
  simp [exec, hs]

/-- Accepting a terminal iteration moves the step out of `Open` before any
delivery, and it can never return to `Open`. -/
lemma runEvent_terminal_leaves_open (beh : Behavior) (f : Nat) (it : Iteration) (w : World)
    (r : World × List Ev × Option JSVal) (hd : it.done = true) (hs : w.sState = .Open)
    (h : exec beh f (.ev it) w = some r) : r.1.sState ≠ .Open := by
  cases f with
  | zero => simp [exec] at h
  | succ n =>
    have hcl : ∀ x : TxState, rankS .Closing ≤ rankS x → x ≠ .Open := by
      intro x hx
      cases x <;> simp [rankS] at hx ⊢
    by_cases hc : w.sChild = true
    · by_cases hq : w.sQueueActive = true
      · simp only [exec, hs, hd, hc, hq, ne_eq, not_true_eq_false, not_false_eq_true,
          Bool.not_eq_true, Bool.false_eq_true, Bool.true_eq_false, if_true, if_false,
          ite_true, ite_false, reduceIte] at h
        obtain ⟨rfl⟩ := h.symm
        simp
      · simp only [exec, hs, hd, hc, hq, ne_eq, not_true_eq_false, not_false_eq_true,
          Bool.not_eq_true, Bool.false_eq_true, Bool.true_eq_false, if_true, if_false,
          ite_true, ite_false, reduceIte] at h
        split at h
        · exact absurd h (by simp)
        · rename_i w1 ev1 th1 heq
          obtain ⟨rfl⟩ := h.symm
          have hr := (exec_phi_bound beh n _ _ _ _ _ heq).2.1
          exact hcl _ hr
    · simp only [exec, hs, hd, hc, ne_eq, not_true_eq_false, not_false_eq_true,
        Bool.not_eq_true, Bool.false_eq_true, Bool.true_eq_false, if_true, if_false,
        ite_true, ite_false, reduceIte] at h
      obtain ⟨rfl⟩ := h.symm
      simp


lemma abandonS_linkInv (w : World) (h : LinkInv w) : LinkInv (abandonS w).1 := by
  by_cases hc : w.sState = .Closed
  · simpa [abandonS, hc] using h
  · simp only [abandonS, hc, if_false, ite_false, reduceIte]
    exact ⟨fun _ => rfl, h.2⟩

lemma abandonChild_linkInv (w : World) (h : LinkInv w) : LinkInv (abandonChildCascade w).1 := by
  by_cases hc : w.cState = .Closed
  · simpa [abandonChildCascade, hc] using h
  · by_cases hp : w.cParent = true
    · simp only [abandonChildCascade, hc, hp, if_false, if_true, ite_false, ite_true, reduceIte]
      exact ⟨fun _ => rfl, fun _ => rfl⟩
    · simp only [abandonChildCascade, hc, hp, if_false, if_true, ite_false, ite_true, reduceIte]
      exact ⟨h.1, fun _ => rfl⟩

lemma childError_linkInv (w : World) (e : JSVal) (h : LinkInv w) :
    LinkInv (childError w e).1 := by
  by_cases hc : w.cState = .Open
  · simp only [childError, hc, ne_eq, not_true_eq_false, if_false, ite_false, reduceIte]
    refine ⟨h.1, fun hp => ?_⟩
    exact absurd (h.2 hp) (by simp [hc])
  · simpa [childError, hc] using h

/-- The interpreter preserves the link invariant: no activity ever clears a
link without closing the step that owned it. -/
lemma exec_linkInv (beh : Behavior) :
    ∀ (f : Nat) (req : Req) (w w' : World) (ev : List Ev) (th : Option JSVal),
      exec beh f req w = some (w', ev, th) → LinkInv w → LinkInv w' := by
  intro f
  induction f with
  | zero => intro req w w' ev th h; simp [exec] at h
  | succ n ih =>
    intro req w w' ev th h hinv
    cases req with
    | ev it =>
      by_cases hs : w.sState = .Open
      · by_cases hd : it.done = true
        all_goals by_cases hc : w.sChild = true
        all_goals first
        | (by_cases hq : w.sQueueActive = true
           all_goals simp only [exec, hs, hd, hc, hq, ne_eq, not_true_eq_false, not_false_eq_true, Bool.not_eq_true, Bool.false_eq_true, Bool.true_eq_false, if_true, if_false, ite_true, ite_false, reduceIte] at h
           · obtain ⟨rfl⟩ := h.symm
             exact ⟨fun hx => by simp at hx, hinv.2⟩
           · split at h
             · exact absurd h (by simp)
             · rename_i w1 ev1 th1 heq
               obtain ⟨rfl⟩ := h.symm
               exact ih _ _ _ _ _ heq ⟨fun hx => by simp at hx, hinv.2⟩)
        | (simp only [exec, hs, hd, hc, ne_eq, not_true_eq_false, not_false_eq_true, Bool.not_eq_true, Bool.false_eq_true, Bool.true_eq_false, if_true, if_false, ite_true, ite_false, reduceIte] at h
           obtain ⟨rfl⟩ := h.symm
           exact ⟨fun _ => absurd (hinv.1 (by simpa using hc)) (by simp [hs]), hinv.2⟩)
      · simp only [exec, hs, ne_eq, not_true_eq_false, not_false_eq_true, Bool.not_eq_true, Bool.false_eq_true, Bool.true_eq_false, if_true, if_false, ite_true, ite_false, reduceIte] at h
        obtain ⟨rfl⟩ := h.symm
        exact hinv
    | drainReq a =>
      by_cases hdn : a.iteration.done = true
      all_goals
        simp only [exec, hdn, ne_eq, not_true_eq_false, not_false_eq_true, Bool.not_eq_true,
          Bool.false_eq_true, Bool.true_eq_false, if_true, if_false, ite_true, ite_false,
          reduceIte] at h
      case pos =>
        have hinv1 : LinkInv (abandonS w).1 := abandonS_linkInv w hinv
        by_cases hcc : (abandonS w).1.cController = true
        · simp only [hcc, ne_eq, not_true_eq_false, Bool.true_eq_false, if_false, ite_false,
            reduceIte] at h
          split at h
          · exact absurd h (by simp)
          · rename_i w2 evC e heq
            have hinv2 := ih _ _ _ _ _ heq hinv1
            have hinv3 := abandonS_linkInv w2 hinv2
            split at h
            · obtain ⟨rfl⟩ := h.symm
              have hinv4 := childError_linkInv (abandonS w2).1 e hinv3
              exact ⟨hinv4.1, hinv4.2⟩
            · obtain ⟨rfl⟩ := h.symm
              exact ⟨hinv3.1, hinv3.2⟩
          · rename_i w2 evC heq
            have hinv2 := ih _ _ _ _ _ heq hinv1
            split at h
            · obtain ⟨rfl⟩ := h.symm
              exact ⟨hinv2.1, hinv2.2⟩
            · split at h
              · obtain ⟨rfl⟩ := h.symm
                exact ⟨hinv2.1, hinv2.2⟩
              · rename_i next rest hq2
                split at h
                · exact absurd h (by simp)
                · rename_i w4 ev4 th4 heq4
                  obtain ⟨rfl⟩ := h.symm
                  exact ih _ _ _ _ _ heq4 ⟨hinv2.1, hinv2.2⟩
        · simp only [hcc, ne_eq, not_true_eq_false, Bool.true_eq_false, Bool.not_eq_true,
            if_true, ite_true, reduceIte] at h
          obtain ⟨rfl⟩ := h.symm
          exact ⟨hinv1.1, hinv1.2⟩
      case neg =>
        by_cases hcc : w.cController = true
        · simp only [hcc, ne_eq, not_true_eq_false, Bool.true_eq_false, if_false, ite_false,
            reduceIte] at h
          split at h
          · exact absurd h (by simp)
          · rename_i w2 evC e heq
            have hinv2 := ih _ _ _ _ _ heq hinv
            have hinv3 := abandonS_linkInv w2 hinv2
            split at h
            · obtain ⟨rfl⟩ := h.symm
              have hinv4 := childError_linkInv (abandonS w2).1 e hinv3
              exact ⟨hinv4.1, hinv4.2⟩
            · obtain ⟨rfl⟩ := h.symm
              exact ⟨hinv3.1, hinv3.2⟩
          · rename_i w2 evC heq
            have hinv2 := ih _ _ _ _ _ heq hinv
            split at h
            · obtain ⟨rfl⟩ := h.symm
              exact ⟨hinv2.1, hinv2.2⟩
            · split at h
              · obtain ⟨rfl⟩ := h.symm
                exact ⟨hinv2.1, hinv2.2⟩
              · rename_i next rest hq2
                split at h
                · exact absurd h (by simp)
                · rename_i w4 ev4 th4 heq4
                  obtain ⟨rfl⟩ := h.symm
                  exact ih _ _ _ _ _ heq4 ⟨hinv2.1, hinv2.2⟩
        · simp only [hcc, ne_eq, not_true_eq_false, Bool.true_eq_false, Bool.not_eq_true,
            if_true, ite_true, reduceIte] at h
          obtain ⟨rfl⟩ := h.symm
          exact ⟨hinv.1, hinv.2⟩
    | cmds cs =>
      cases cs with
      | nil =>
        simp only [exec, Option.some.injEq, Prod.mk.injEq] at h
        obtain ⟨rfl, rfl, rfl⟩ := h
        exact hinv
      | cons c rest =>
        cases c with
        | throwJs e =>
          simp only [exec, Option.some.injEq, Prod.mk.injEq] at h
          obtain ⟨rfl, rfl, rfl⟩ := h
          exact hinv
        | emitNext v =>
          simp only [exec] at h
          split at h
          · exact absurd h (by simp)
          · rename_i w1 ev1 th1 heq1
            split at h
            · exact absurd h (by simp)
            · rename_i w2 ev2 th2 heq2
              obtain ⟨rfl⟩ := h.symm
              exact ih _ _ _ _ _ heq2 (ih _ _ _ _ _ heq1 hinv)
        | emitComplete =>
          simp only [exec] at h
          split at h
          · exact absurd h (by simp)
          · rename_i w1 ev1 th1 heq1
            split at h
            · exact absurd h (by simp)
            · rename_i w2 ev2 th2 heq2
              obtain ⟨rfl⟩ := h.symm
              exact ih _ _ _ _ _ heq2 (ih _ _ _ _ _ heq1 hinv)
        | emitError v =>
          simp only [exec] at h
          split at h
          · exact absurd h (by simp)
          · rename_i w1 ev1 th1 heq1
            split at h
            · exact absurd h (by simp)
            · rename_i w2 ev2 th2 heq2
              obtain ⟨rfl⟩ := h.symm
              exact ih _ _ _ _ _ heq2 (ih _ _ _ _ _ heq1 hinv)
        | emitIter it =>
          simp only [exec] at h
          split at h
          · exact absurd h (by simp)
          · rename_i w1 ev1 th1 heq1
            split at h
            · exact absurd h (by simp)
            · rename_i w2 ev2 th2 heq2
              obtain ⟨rfl⟩ := h.symm
              exact ih _ _ _ _ _ heq2 (ih _ _ _ _ _ heq1 hinv)
        | abandonChildCmd =>
          simp only [exec] at h
          split at h
          · exact absurd h (by simp)
          · rename_i w2 ev2 th2 heq2
            obtain ⟨rfl⟩ := h.symm
            exact ih _ _ _ _ _ heq2 (abandonChild_linkInv w hinv)
        | abandonStepCmd =>
          simp only [exec] at h
          split at h
          · exact absurd h (by simp)
          · rename_i w2 ev2 th2 heq2
            obtain ⟨rfl⟩ := h.symm
            exact ih _ _ _ _ _ heq2 (abandonS_linkInv w hinv)

/-- `runEvent` never lets an exception escape to the caller of an emit: the
throw channel of an emit activity is always empty (the drain's catch takes
every thrown value). -/
lemma exec_ev_no_throw (beh : Behavior) (f : Nat) (it : Iteration) (w : World)
    (r : World × List Ev × Option JSVal) (h : exec beh f (.ev it) w = some r) :
    r.2.2 = none := by
  cases f with
  | zero => simp [exec] at h
  | succ n =>
    by_cases hs : w.sState = .Open
    · by_cases hd : it.done = true
      all_goals by_cases hc : w.sChild = true
      all_goals first
      | (by_cases hq : w.sQueueActive = true
         all_goals simp only [exec, hs, hd, hc, hq, ne_eq, not_true_eq_false,
           not_false_eq_true, Bool.not_eq_true, Bool.false_eq_true, Bool.true_eq_false,
           if_true, if_false, ite_true, ite_false, reduceIte] at h
         · obtain ⟨rfl⟩ := h.symm
           rfl
         · split at h
           · exact absurd h (by simp)
           · obtain ⟨rfl⟩ := h.symm
             rfl)
      | (simp only [exec, hs, hd, hc, ne_eq, not_true_eq_false, not_false_eq_true,
           Bool.not_eq_true, Bool.false_eq_true, Bool.true_eq_false, if_true, if_false,
           ite_true, ite_false, reduceIte] at h
         obtain ⟨rfl⟩ := h.symm
         rfl)
    · simp only [exec, hs, ne_eq, not_true_eq_false, not_false_eq_true, if_true,
        ite_true, reduceIte] at h
      obtain ⟨rfl⟩ := h.symm
      rfl







lemma accIdx_nil : accIdx [] = [] := rfl

lemma delivIdx_nil : delivIdx [] = [] := rfl

lemma accIdx_append (a b : List Ev) : accIdx (a ++ b) = accIdx a ++ accIdx b :=
  List.filterMap_append _ _ _

lemma delivIdx_append (a b : List Ev) : delivIdx (a ++ b) = delivIdx a ++ delivIdx b :=
  List.filterMap_append _ _ _

lemma accIdx_closers (o : Option Nat) : accIdx (o.map Ev.closer).toList = [] := by
  cases o <;> rfl

lemma delivIdx_closers (o : Option Nat) : delivIdx (o.map Ev.closer).toList = [] := by
  cases o <;> rfl

lemma accIdx_cons_delivered (a : QNode) (l : List Ev) :
    accIdx (Ev.delivered a.iteration a.index :: l) = accIdx l := rfl

lemma delivIdx_cons_delivered (a : QNode) (l : List Ev) :
    delivIdx (Ev.delivered a.iteration a.index :: l) = a.index :: delivIdx l := rfl

lemma range'_cons (a n : Nat) : List.range' a (n + 1) = a :: List.range' (a + 1) n :=
  List.range'_succ a n 1

lemma range'_glue (a m n b : Nat) (hb : b = a + m) :
    List.range' a m ++ List.range' b n = List.range' a (m + n) := by
  subst hb
  rw [show m + n = n + m from Nat.add_comm m n]
  exact List.range'_append_1 a m n


lemma chain_lt_glue (l1 l2 : List Nat) (b : Nat) (h1 : List.Chain' (· < ·) l1)
    (h2 : List.Chain' (· < ·) l2) (hu : ∀ d ∈ l1, d < b) (hl : ∀ d ∈ l2, b ≤ d) :
    List.Chain' (· < ·) (l1 ++ l2) := by
  rw [List.chain'_append]
  refine ⟨h1, h2, fun x hx y hy => ?_⟩
  have hx' : x ∈ l1 := List.mem_of_mem_getLast? hx
  have hy' : y ∈ l2 := List.mem_of_mem_head? hy
  exact lt_of_lt_of_le (hu x hx') (hl y hy')

lemma QOK_of_eq (w w' : World) (hq : w'.sQueue = w.sQueue)
    (hn : w'.sNextIndex = w.sNextIndex) (h : QOK w) : QOK w' := by
  constructor
  · rw [hq]; exact h.1
  · rw [hq, hn]; exact h.2

lemma abandonS_DGuard (w : World) (h : DGuard w) : DGuard (abandonS w).1 := by
  by_cases hc : w.sState = .Closed
  · simpa [abandonS, hc] using h
  · simp [abandonS, hc, DGuard]

lemma abandonChild_DGuard (w : World) (h : DGuard w) : DGuard (abandonChildCascade w).1 := by
  by_cases hc : w.cState = .Closed
  · simpa [abandonChildCascade, hc] using h
  · by_cases hp : w.cParent = true
    · simp [abandonChildCascade, hc, hp, DGuard]
    · simpa [abandonChildCascade, hc, hp, DGuard] using h

lemma childError_DGuard (w : World) (e : JSVal) (h : DGuard w) :
    DGuard (childError w e).1 := by
  by_cases hc : w.cState = .Open
  · simpa [childError, hc, DGuard] using h
  · simpa [childError, hc] using h

lemma abandonS_evs (w : World) :
    accIdx (abandonS w).2 = [] ∧ delivIdx (abandonS w).2 = [] := by
  by_cases hc : w.sState = .Closed <;>
    simp [abandonS, hc, accIdx_closers, delivIdx_closers, accIdx_nil, delivIdx_nil]

lemma abandonChild_evs (w : World) :
    accIdx (abandonChildCascade w).2 = [] ∧ delivIdx (abandonChildCascade w).2 = [] := by
  by_cases hc : w.cState = .Closed
  · simp [abandonChildCascade, hc, accIdx_nil, delivIdx_nil]
  · by_cases hp : w.cParent = true <;>
      simp [abandonChildCascade, hc, hp, accIdx_append, delivIdx_append,
        accIdx_closers, delivIdx_closers]

lemma accIdx_unhandled (e : JSVal) : accIdx [Ev.unhandled e] = [] := rfl

lemma delivIdx_unhandled (e : JSVal) : delivIdx [Ev.unhandled e] = [] := rfl

lemma childError_evs (w : World) (e : JSVal) :
    accIdx (childError w e).2 = [] ∧ delivIdx (childError w e).2 = [] := by
  by_cases hc : w.cState = .Open <;> simp [childError, hc, accIdx, delivIdx]

/-- Index discipline of the interpreter: indices are assigned consecutively
at node creation, queued indices stay sorted below the next index, and
deliveries happen in strictly increasing index order within the activity's
bounds; while a drain owns the step, emits and controller bodies deliver
nothing themselves. -/
lemma exec_idx (beh : Behavior) :
    ∀ (f : Nat) (req : Req) (w w' : World) (ev : List Ev) (th : Option JSVal),
      exec beh f req w = some (w', ev, th) → QOK w → drainPre req w →
      ( w.sNextIndex ≤ w'.sNextIndex
      ∧ QOK w'
      ∧ accIdx ev = List.range' w.sNextIndex (w'.sNextIndex - w.sNextIndex)
      ∧ (∀ q ∈ w'.sQueue, q ∈ w.sQueue ∨ w.sNextIndex ≤ q.index)
      ∧ List.Chain' (· < ·) (delivIdx ev)
      ∧ (∀ d ∈ delivIdx ev, lbReq req w ≤ d ∧ d < w'.sNextIndex)
      ∧ (notDrain req → DGuard w → delivIdx ev = [] ∧ DGuard w') ) := by
  intro f
  induction f with
  | zero => intro req w w' ev th h; simp [exec] at h
  | succ n ih =>
    intro req w w' ev th h hqok hpre
    cases req with
    | ev it =>
      by_cases hs : w.sState = .Open
      · by_cases hd : it.done = true
        · by_cases hc : w.sChild = true
          · by_cases hq : w.sQueueActive = true
            · simp only [exec, hs, hd, hc, hq, ne_eq, not_true_eq_false, not_false_eq_true, Bool.not_eq_true, Bool.false_eq_true, Bool.true_eq_false, if_true, if_false, ite_true, ite_false, reduceIte] at h
              obtain ⟨rfl⟩ := h.symm
              refine ⟨by exact Nat.le_succ _, ⟨?_, ?_⟩, ?_, ?_, by simp [delivIdx], ?_, ?_⟩
              · simp only [qIdx, List.map_append, List.map_cons, List.map_nil]
                rw [List.chain'_append]
                refine ⟨hqok.1, by simp, fun x hx y hy => ?_⟩
                simp only [List.head?_cons, Option.mem_def, Option.some.injEq] at hy
                subst hy
                have hx2 := List.mem_of_mem_getLast? hx
                simp only [qIdx, List.mem_map] at hx2
                obtain ⟨q, hq1, rfl⟩ := hx2
                exact hqok.2 q hq1
              · intro q hq1
                simp only [List.mem_append, List.mem_cons, List.not_mem_nil, or_false] at hq1
                rcases hq1 with hq1 | rfl
                · exact Nat.lt_succ_of_lt (hqok.2 q hq1)
                · exact Nat.lt_succ_self _
              · simp [accIdx, List.range'_succ]
              · intro q hq1
                simp only [List.mem_append, List.mem_cons, List.not_mem_nil, or_false] at hq1
                rcases hq1 with hq1 | rfl
                · exact Or.inl hq1
                · exact Or.inr (le_refl _)
              · simp [delivIdx]
              · intro x1 x2
                exact ⟨by simp [delivIdx], Or.inl rfl⟩
            · simp only [exec, hs, hd, hc, hq, ne_eq, not_true_eq_false, not_false_eq_true, Bool.not_eq_true, Bool.false_eq_true, Bool.true_eq_false, if_true, if_false, ite_true, ite_false, reduceIte] at h
              split at h
              · exact absurd h (by simp)
              · rename_i w1 ev1 th1 heq
                obtain ⟨rfl⟩ := h.symm
                have hqok1 : QOK { w with sState := TxState.Closing, sQueueActive := true, sQueue := [], sNextIndex := w.sNextIndex + 1 } := by
                  constructor <;> simp [qIdx]
                obtain ⟨i1, i2, i3, i4, i5, i6, i7⟩ := ih _ _ _ _ _ heq hqok1
                  (by refine ⟨by simp, by simp, Or.inl rfl⟩)
                refine ⟨by simp at i1 ⊢; omega, i2, ?_, ?_, i5, ?_, ?_⟩
                · simp only [accIdx, List.filterMap_cons] at i3 ⊢
                  rw [i3]
                  have hx : w.sNextIndex + 1 ≤ w'.sNextIndex := by simpa using i1
                  rw [show w'.sNextIndex - w.sNextIndex = (w'.sNextIndex - (w.sNextIndex + 1)) + 1 by omega]
                  rw [range'_cons]
                · intro q hq1
                  rcases i4 q hq1 with hx | hx
                  · simp at hx
                  · simp at hx
                    omega
                · intro d hd1
                  obtain ⟨l1, l2⟩ := i6 d hd1
                  simp only [lbReq] at l1 ⊢
                  exact ⟨by omega, l2⟩
                · intro x1 hdg
                  rcases hdg with hdg | hdg
                  · exact absurd hdg (by simpa using hq)
                  · exact absurd hs (by simpa using hdg)
          · simp only [exec, hs, hd, hc, ne_eq, not_true_eq_false, not_false_eq_true, Bool.not_eq_true, Bool.false_eq_true, Bool.true_eq_false, if_true, if_false, ite_true, ite_false, reduceIte] at h
            obtain ⟨rfl⟩ := h.symm
            refine ⟨le_refl _, ⟨hqok.1, hqok.2⟩, by simp [accIdx], fun q hq1 => Or.inl hq1,
              by simp [delivIdx], by simp [delivIdx], fun x1 hdg => ⟨by simp [delivIdx], ?_⟩⟩
            rcases hdg with hdg | hdg
            · exact Or.inl hdg
            · exact Or.inr (by simp)
        · by_cases hc : w.sChild = true
          · by_cases hq : w.sQueueActive = true
            · simp only [exec, hs, hd, hc, hq, ne_eq, not_true_eq_false, not_false_eq_true, Bool.not_eq_true, Bool.false_eq_true, Bool.true_eq_false, if_true, if_false, ite_true, ite_false, reduceIte] at h
              obtain ⟨rfl⟩ := h.symm
              refine ⟨by exact Nat.le_succ _, ⟨?_, ?_⟩, ?_, ?_, by simp [delivIdx], ?_, ?_⟩
              · simp only [qIdx, List.map_append, List.map_cons, List.map_nil]
                rw [List.chain'_append]
                refine ⟨hqok.1, by simp, fun x hx y hy => ?_⟩
                simp only [List.head?_cons, Option.mem_def, Option.some.injEq] at hy
                subst hy
                have hx2 := List.mem_of_mem_getLast? hx
                simp only [qIdx, List.mem_map] at hx2
                obtain ⟨q, hq1, rfl⟩ := hx2
                exact hqok.2 q hq1
              · intro q hq1
                simp only [List.mem_append, List.mem_cons, List.not_mem_nil, or_false] at hq1
                rcases hq1 with hq1 | rfl
                · exact Nat.lt_succ_of_lt (hqok.2 q hq1)
                · exact Nat.lt_succ_self _
              · simp [accIdx, List.range'_succ]
              · intro q hq1
                simp only [List.mem_append, List.mem_cons, List.not_mem_nil, or_false] at hq1
                rcases hq1 with hq1 | rfl
                · exact Or.inl hq1
                · exact Or.inr (le_refl _)
              · simp [delivIdx]
              · intro x1 x2
                exact ⟨by simp [delivIdx], Or.inl rfl⟩
            · simp only [exec, hs, hd, hc, hq, ne_eq, not_true_eq_false, not_false_eq_true, Bool.not_eq_true, Bool.false_eq_true, Bool.true_eq_false, if_true, if_false, ite_true, ite_false, reduceIte] at h
              split at h
              · exact absurd h (by simp)
              · rename_i w1 ev1 th1 heq
                obtain ⟨rfl⟩ := h.symm
                have hqok1 : QOK { w with sState := w.sState, sQueueActive := true, sQueue := [], sNextIndex := w.sNextIndex + 1 } := by
                  constructor <;> simp [qIdx]
                obtain ⟨i1, i2, i3, i4, i5, i6, i7⟩ := ih _ _ _ _ _ heq hqok1
                  (by refine ⟨by simp, by simp, Or.inl rfl⟩)
                refine ⟨by simp at i1 ⊢; omega, i2, ?_, ?_, i5, ?_, ?_⟩
                · simp only [accIdx, List.filterMap_cons] at i3 ⊢
                  rw [i3]
                  have hx : w.sNextIndex + 1 ≤ w'.sNextIndex := by simpa using i1
                  rw [show w'.sNextIndex - w.sNextIndex = (w'.sNextIndex - (w.sNextIndex + 1)) + 1 by omega]
                  rw [range'_cons]
                · intro q hq1
                  rcases i4 q hq1 with hx | hx
                  · simp at hx
                  · simp at hx
                    omega
                · intro d hd1
                  obtain ⟨l1, l2⟩ := i6 d hd1
                  simp only [lbReq] at l1 ⊢
                  exact ⟨by omega, l2⟩
                · intro x1 hdg
                  rcases hdg with hdg | hdg
                  · exact absurd hdg (by simpa using hq)
                  · exact absurd hs (by simpa using hdg)
          · simp only [exec, hs, hd, hc, ne_eq, not_true_eq_false, not_false_eq_true, Bool.not_eq_true, Bool.false_eq_true, Bool.true_eq_false, if_true, if_false, ite_true, ite_false, reduceIte] at h
            obtain ⟨rfl⟩ := h.symm
            refine ⟨le_refl _, ⟨hqok.1, hqok.2⟩, by simp [accIdx], fun q hq1 => Or.inl hq1,
              by simp [delivIdx], by simp [delivIdx], fun x1 hdg => ⟨by simp [delivIdx], ?_⟩⟩
            rcases hdg with hdg | hdg
            · exact Or.inl hdg
            · exact absurd hs (by simpa using hdg)
      · simp only [exec, hs, ne_eq, not_true_eq_false, not_false_eq_true, if_true,
          ite_true, reduceIte] at h
        obtain ⟨rfl⟩ := h.symm
        exact ⟨le_refl _, hqok, by simp [accIdx], fun q hq1 => Or.inl hq1,
          by simp [delivIdx], by simp [delivIdx], fun x1 hdg => ⟨by simp [delivIdx], hdg⟩⟩
    | drainReq a =>
      by_cases hdn : a.iteration.done = true
      all_goals simp only [exec, hdn, ne_eq, not_true_eq_false, not_false_eq_true, Bool.not_eq_true, Bool.false_eq_true, Bool.true_eq_false, if_true, if_false, ite_true, ite_false, reduceIte] at h
      case pos =>
        obtain ⟨hph1, hcd1, hq1x, hr1s, he1c, hn1⟩ := abandonS_phi w
        have hqok1 : QOK (abandonS w).1 := QOK_of_eq _ _ hq1x hn1 hqok
        have hdg1 : DGuard (abandonS w).1 := abandonS_DGuard w hpre.2.2
        by_cases hcc : (abandonS w).1.cController = true
        · simp only [hcc, ne_eq, not_true_eq_false, not_false_eq_true, Bool.not_eq_true, Bool.false_eq_true, Bool.true_eq_false, if_true, if_false, ite_true, ite_false, reduceIte] at h
          split at h
          · exact absurd h (by simp)
          · rename_i w2 evC e heq
            obtain ⟨i1, i2, i3, i4, i5, i6, i7⟩ := ih _ _ _ _ _ heq hqok1 trivial
            obtain ⟨dC, gC⟩ := i7 trivial hdg1
            rw [hn1] at i1 i3
            simp only [lbReq, hn1] at i6
            obtain ⟨hph3, hcd3, hq3x, hr3s, he3c, hn3⟩ := abandonS_phi w2
            split at h
            · rename_i hopen
              obtain ⟨hph4, hcd4, hs4, hr4, hn4, hq4⟩ := childError_phi (abandonS w2).1 e
              simp only [Option.some.injEq, Prod.mk.injEq] at h
              obtain ⟨hw, hev, hth⟩ := h
              subst hev
              subst hth
              have hfq : w'.sQueue = [] := by rw [← hw]
              have hfn : w'.sNextIndex = w2.sNextIndex := by rw [← hw]; exact hn4.trans hn3
              refine ⟨?_, ?_, ?_, ?_, ?_, ?_, fun hf => False.elim (by simpa [notDrain] using hf)⟩
              · rw [hfn]; omega
              · exact ⟨by rw [hfq]; simp [qIdx], fun q hq1 => by rw [hfq] at hq1; simp at hq1⟩
              · simp only [accIdx_append, accIdx_cons_delivered, (abandonS_evs w).1,
                  (abandonS_evs w2).1, (childError_evs (abandonS w2).1 e).1, accIdx_nil,
                  List.append_nil, List.nil_append, i3, hfn]
              · intro q hq1; rw [hfq] at hq1; simp at hq1
              · simp only [delivIdx_append, delivIdx_cons_delivered, (abandonS_evs w).2,
                  (abandonS_evs w2).2, (childError_evs (abandonS w2).1 e).2, dC, delivIdx_nil,
                  List.append_nil, List.nil_append]
                simp
              · intro d hd1
                simp only [delivIdx_append, delivIdx_cons_delivered, (abandonS_evs w).2,
                  (abandonS_evs w2).2, (childError_evs (abandonS w2).1 e).2, dC, delivIdx_nil,
                  List.append_nil, List.nil_append] at hd1
                simp at hd1
                have := hpre.1
                simp only [lbReq]
                rw [hfn]
                omega
            · simp only [Option.some.injEq, Prod.mk.injEq] at h
              obtain ⟨hw, hev, hth⟩ := h
              subst hev
              subst hth
              have hfq : w'.sQueue = [] := by rw [← hw]
              have hfn : w'.sNextIndex = w2.sNextIndex := by rw [← hw]; exact hn3
              refine ⟨?_, ?_, ?_, ?_, ?_, ?_, fun hf => False.elim (by simpa [notDrain] using hf)⟩
              · rw [hfn]; omega
              · exact ⟨by rw [hfq]; simp [qIdx], fun q hq1 => by rw [hfq] at hq1; simp at hq1⟩
              · simp only [accIdx_append, accIdx_cons_delivered, (abandonS_evs w).1,
                  (abandonS_evs w2).1, accIdx_nil, accIdx_unhandled, List.append_nil, List.nil_append, i3, hfn]
              · intro q hq1; rw [hfq] at hq1; simp at hq1
              · simp only [delivIdx_append, delivIdx_cons_delivered, (abandonS_evs w).2,
                  (abandonS_evs w2).2, dC, delivIdx_nil, delivIdx_unhandled, List.append_nil, List.nil_append]
                simp
              · intro d hd1
                simp only [delivIdx_append, delivIdx_cons_delivered, (abandonS_evs w).2,
                  (abandonS_evs w2).2, dC, delivIdx_nil, delivIdx_unhandled, List.append_nil, List.nil_append] at hd1
                simp at hd1
                have := hpre.1
                simp only [lbReq]
                rw [hfn]
                omega
          · rename_i w2 evC heq
            obtain ⟨i1, i2, i3, i4, i5, i6, i7⟩ := ih _ _ _ _ _ heq hqok1 trivial
            obtain ⟨dC, gC⟩ := i7 trivial hdg1
            rw [hn1] at i1 i3
            rw [hq1x, hn1] at i4
            simp only [lbReq, hn1] at i6
            split at h
            · simp only [Option.some.injEq, Prod.mk.injEq] at h
              obtain ⟨hw, hev, hth⟩ := h
              subst hev
              subst hth
              have hfq : w'.sQueue = [] := by rw [← hw]
              have hfn : w'.sNextIndex = w2.sNextIndex := by rw [← hw]
              refine ⟨?_, ?_, ?_, ?_, ?_, ?_, fun hf => False.elim (by simpa [notDrain] using hf)⟩
              · rw [hfn]; omega
              · exact ⟨by rw [hfq]; simp [qIdx], fun q hq1 => by rw [hfq] at hq1; simp at hq1⟩
              · simp only [accIdx_append, accIdx_cons_delivered, (abandonS_evs w).1,
                  accIdx_nil, accIdx_unhandled, List.append_nil, List.nil_append, i3, hfn]
              · intro q hq1; rw [hfq] at hq1; simp at hq1
              · simp only [delivIdx_append, delivIdx_cons_delivered, (abandonS_evs w).2,
                  dC, delivIdx_nil, delivIdx_unhandled, List.append_nil, List.nil_append]
                simp
              · intro d hd1
                simp only [delivIdx_append, delivIdx_cons_delivered, (abandonS_evs w).2,
                  dC, delivIdx_nil, delivIdx_unhandled, List.append_nil, List.nil_append] at hd1
                simp at hd1
                have := hpre.1
                simp only [lbReq]
                rw [hfn]
                omega
            · split at h
              · simp only [Option.some.injEq, Prod.mk.injEq] at h
                obtain ⟨hw, hev, hth⟩ := h
                subst hev
                subst hth
                have hfq : w'.sQueue = [] := by rw [← hw]
                have hfn : w'.sNextIndex = w2.sNextIndex := by rw [← hw]
                refine ⟨?_, ?_, ?_, ?_, ?_, ?_, fun hf => False.elim (by simpa [notDrain] using hf)⟩
                · rw [hfn]; omega
                · exact ⟨by rw [hfq]; simp [qIdx], fun q hq1 => by rw [hfq] at hq1; simp at hq1⟩
                · simp only [accIdx_append, accIdx_cons_delivered, (abandonS_evs w).1,
                    accIdx_nil, accIdx_unhandled, List.append_nil, List.nil_append, i3, hfn]
                · intro q hq1; rw [hfq] at hq1; simp at hq1
                · simp only [delivIdx_append, delivIdx_cons_delivered, (abandonS_evs w).2,
                    dC, delivIdx_nil, delivIdx_unhandled, List.append_nil, List.nil_append]
                  simp
                · intro d hd1
                  simp only [delivIdx_append, delivIdx_cons_delivered, (abandonS_evs w).2,
                    dC, delivIdx_nil, delivIdx_unhandled, List.append_nil, List.nil_append] at hd1
                  simp at hd1
                  have := hpre.1
                  simp only [lbReq]
                  rw [hfn]
                  omega
              · rename_i next rest hq2
                split at h
                · exact absurd h (by simp)
                · rename_i w4 ev4 th4 heq4
                  have hnext : next ∈ w2.sQueue := by rw [hq2]; exact List.mem_cons_self _ _
                  have hqokr : QOK { w2 with sQueue := rest } := by
                    constructor
                    · have hch := i2.1
                      rw [hq2] at hch
                      simp only [qIdx, List.map_cons] at hch
                      exact (List.chain'_cons'.mp hch).2
                    · intro q hq3
                      exact i2.2 q (by rw [hq2]; exact List.mem_cons_of_mem _ hq3)
                  have hpw : List.Pairwise (· < ·) (qIdx w2.sQueue) :=
                    List.chain'_iff_pairwise.mp i2.1
                  have hpre4 : drainPre (Req.drainReq next) { w2 with sQueue := rest } := by
                    refine ⟨i2.2 next hnext, ?_, gC⟩
                    intro q hq3
                    rw [hq2] at hpw
                    simp only [qIdx, List.map_cons, List.pairwise_cons] at hpw
                    exact hpw.1 q.index (by simp [qIdx]; exact ⟨q, hq3, rfl⟩)
                  obtain ⟨j1, j2, j3, j4, j5, j6, j7⟩ := ih _ _ _ _ _ heq4 hqokr hpre4
                  have j1x : w2.sNextIndex ≤ w4.sNextIndex := j1
                  have j3x : accIdx ev4 = List.range' w2.sNextIndex (w4.sNextIndex - w2.sNextIndex) := j3
                  have j4x : ∀ q ∈ w4.sQueue, q ∈ rest ∨ w2.sNextIndex ≤ q.index := j4
                  have j6x : ∀ d ∈ delivIdx ev4, next.index ≤ d ∧ d < w4.sNextIndex := by
                    intro d hd1
                    simpa [lbReq] using j6 d hd1
                  have hanext : a.index < next.index := by
                    rcases i4 next hnext with hx | hx
                    · exact hpre.2.1 next hx
                    · exact lt_of_lt_of_le hpre.1 hx
                  simp only [Option.some.injEq, Prod.mk.injEq] at h
                  obtain ⟨hw, hev, hth⟩ := h
                  subst hev
                  subst hth
                  subst hw
                  refine ⟨?_, j2, ?_, ?_, ?_, ?_, fun hf => False.elim (by simpa [notDrain] using hf)⟩
                  · omega
                  · simp only [accIdx_append, accIdx_cons_delivered, (abandonS_evs w).1,
                      accIdx_nil, accIdx_unhandled, List.append_nil, List.nil_append, i3, j3x]
                    rw [range'_glue _ _ _ _ (by omega)]
                    congr 1
                    omega
                  · intro q hq3
                    rcases j4x q hq3 with hx | hx
                    · have : q ∈ w2.sQueue := by rw [hq2]; exact List.mem_cons_of_mem _ hx
                      rcases i4 q this with hy | hy
                      · exact Or.inl hy
                      · exact Or.inr hy
                    · exact Or.inr (by omega)
                  · simp only [delivIdx_append, delivIdx_cons_delivered, (abandonS_evs w).2,
                      dC, delivIdx_nil, delivIdx_unhandled, List.append_nil, List.nil_append]
                    refine chain_lt_glue _ _ next.index (by simp) j5 ?_ ?_
                    · intro d2 hd2
                      simp at hd2
                      omega
                    · intro d2 hd2
                      exact (j6x d2 hd2).1
                  · intro d hd1
                    simp only [delivIdx_append, delivIdx_cons_delivered, (abandonS_evs w).2,
                      dC, delivIdx_nil, delivIdx_unhandled, List.append_nil, List.nil_append] at hd1
                    simp only [lbReq]
                    rcases List.mem_cons.mp hd1 with rfl | hd1
                    · have := hpre.1
                      omega
                    · obtain ⟨l1, l2⟩ := j6x d hd1
                      omega
        · simp only [hcc, ne_eq, not_true_eq_false, not_false_eq_true, Bool.not_eq_true, Bool.false_eq_true, Bool.true_eq_false, if_true, if_false, ite_true, ite_false, reduceIte] at h
          simp only [Option.some.injEq, Prod.mk.injEq] at h
          obtain ⟨hw, hev, hth⟩ := h
          subst hev
          subst hth
          have hfq : w'.sQueue = [] := by rw [← hw]
          have hfn : w'.sNextIndex = w.sNextIndex := by rw [← hw]; exact hn1
          refine ⟨?_, ?_, ?_, ?_, ?_, ?_, fun hf => False.elim (by simpa [notDrain] using hf)⟩
          · rw [hfn]
          · exact ⟨by rw [hfq]; simp [qIdx], fun q hq1 => by rw [hfq] at hq1; simp at hq1⟩
          · simp only [accIdx_append, accIdx_cons_delivered, (abandonS_evs w).1,
              accIdx_nil, accIdx_unhandled, List.append_nil, List.nil_append, hfn]
            simp
          · intro q hq1; rw [hfq] at hq1; simp at hq1
          · simp only [delivIdx_append, (abandonS_evs w).2, delivIdx_nil]
            simp [delivIdx]
          · intro d hd1
            simp only [delivIdx_append, (abandonS_evs w).2, delivIdx_nil] at hd1
            simp [delivIdx] at hd1
      case neg =>
        have hqok1 : QOK w := hqok
        have hdg1 : DGuard w := hpre.2.2
        by_cases hcc : w.cController = true
        · simp only [hcc, ne_eq, not_true_eq_false, not_false_eq_true, Bool.not_eq_true, Bool.false_eq_true, Bool.true_eq_false, if_true, if_false, ite_true, ite_false, reduceIte] at h
          split at h
          · exact absurd h (by simp)
          · rename_i w2 evC e heq
            obtain ⟨i1, i2, i3, i4, i5, i6, i7⟩ := ih _ _ _ _ _ heq hqok1 trivial
            obtain ⟨dC, gC⟩ := i7 trivial hdg1
            simp only [lbReq] at i6
            obtain ⟨hph3, hcd3, hq3x, hr3s, he3c, hn3⟩ := abandonS_phi w2
            split at h
            · rename_i hopen
              obtain ⟨hph4, hcd4, hs4, hr4, hn4, hq4⟩ := childError_phi (abandonS w2).1 e
              simp only [Option.some.injEq, Prod.mk.injEq] at h
              obtain ⟨hw, hev, hth⟩ := h
              subst hev
              subst hth
              have hfq : w'.sQueue = [] := by rw [← hw]
              have hfn : w'.sNextIndex = w2.sNextIndex := by rw [← hw]; exact hn4.trans hn3
              refine ⟨?_, ?_, ?_, ?_, ?_, ?_, fun hf => False.elim (by simpa [notDrain] using hf)⟩
              · rw [hfn]; omega
              · exact ⟨by rw [hfq]; simp [qIdx], fun q hq1 => by rw [hfq] at hq1; simp at hq1⟩
              · simp only [accIdx_append, accIdx_cons_delivered, (abandonS_evs w).1,
                  (abandonS_evs w2).1, (childError_evs (abandonS w2).1 e).1, accIdx_nil,
                  List.append_nil, List.nil_append, i3, hfn]
              · intro q hq1; rw [hfq] at hq1; simp at hq1
              · simp only [delivIdx_append, delivIdx_cons_delivered, (abandonS_evs w).2,
                  (abandonS_evs w2).2, (childError_evs (abandonS w2).1 e).2, dC, delivIdx_nil,
                  List.append_nil, List.nil_append]
                simp
              · intro d hd1
                simp only [delivIdx_append, delivIdx_cons_delivered, (abandonS_evs w).2,
                  (abandonS_evs w2).2, (childError_evs (abandonS w2).1 e).2, dC, delivIdx_nil,
                  List.append_nil, List.nil_append] at hd1
                simp at hd1
                have := hpre.1
                simp only [lbReq]
                rw [hfn]
                omega
            · simp only [Option.some.injEq, Prod.mk.injEq] at h
              obtain ⟨hw, hev, hth⟩ := h
              subst hev
              subst hth
              have hfq : w'.sQueue = [] := by rw [← hw]
              have hfn : w'.sNextIndex = w2.sNextIndex := by rw [← hw]; exact hn3
              refine ⟨?_, ?_, ?_, ?_, ?_, ?_, fun hf => False.elim (by simpa [notDrain] using hf)⟩
              · rw [hfn]; omega
              · exact ⟨by rw [hfq]; simp [qIdx], fun q hq1 => by rw [hfq] at hq1; simp at hq1⟩
              · simp only [accIdx_append, accIdx_cons_delivered, (abandonS_evs w).1,
                  (abandonS_evs w2).1, accIdx_nil, accIdx_unhandled, List.append_nil, List.nil_append, i3, hfn]
              · intro q hq1; rw [hfq] at hq1; simp at hq1
              · simp only [delivIdx_append, delivIdx_cons_delivered, (abandonS_evs w).2,
                  (abandonS_evs w2).2, dC, delivIdx_nil, delivIdx_unhandled, List.append_nil, List.nil_append]
                simp
              · intro d hd1
                simp only [delivIdx_append, delivIdx_cons_delivered, (abandonS_evs w).2,
                  (abandonS_evs w2).2, dC, delivIdx_nil, delivIdx_unhandled, List.append_nil, List.nil_append] at hd1
                simp at hd1
                have := hpre.1
                simp only [lbReq]
                rw [hfn]
                omega
          · rename_i w2 evC heq
            obtain ⟨i1, i2, i3, i4, i5, i6, i7⟩ := ih _ _ _ _ _ heq hqok1 trivial
            obtain ⟨dC, gC⟩ := i7 trivial hdg1
            simp only [lbReq] at i6
            split at h
            · simp only [Option.some.injEq, Prod.mk.injEq] at h
              obtain ⟨hw, hev, hth⟩ := h
              subst hev
              subst hth
              have hfq : w'.sQueue = [] := by rw [← hw]
              have hfn : w'.sNextIndex = w2.sNextIndex := by rw [← hw]
              refine ⟨?_, ?_, ?_, ?_, ?_, ?_, fun hf => False.elim (by simpa [notDrain] using hf)⟩
              · rw [hfn]; omega
              · exact ⟨by rw [hfq]; simp [qIdx], fun q hq1 => by rw [hfq] at hq1; simp at hq1⟩
              · simp only [accIdx_append, accIdx_cons_delivered, (abandonS_evs w).1,
                  accIdx_nil, accIdx_unhandled, List.append_nil, List.nil_append, i3, hfn]
              · intro q hq1; rw [hfq] at hq1; simp at hq1
              · simp only [delivIdx_append, delivIdx_cons_delivered, (abandonS_evs w).2,
                  dC, delivIdx_nil, delivIdx_unhandled, List.append_nil, List.nil_append]
                simp
              · intro d hd1
                simp only [delivIdx_append, delivIdx_cons_delivered, (abandonS_evs w).2,
                  dC, delivIdx_nil, delivIdx_unhandled, List.append_nil, List.nil_append] at hd1
                simp at hd1
                have := hpre.1
                simp only [lbReq]
                rw [hfn]
                omega
            · split at h
              · simp only [Option.some.injEq, Prod.mk.injEq] at h
                obtain ⟨hw, hev, hth⟩ := h
                subst hev
                subst hth
                have hfq : w'.sQueue = [] := by rw [← hw]
                have hfn : w'.sNextIndex = w2.sNextIndex := by rw [← hw]
                refine ⟨?_, ?_, ?_, ?_, ?_, ?_, fun hf => False.elim (by simpa [notDrain] using hf)⟩
                · rw [hfn]; omega
                · exact ⟨by rw [hfq]; simp [qIdx], fun q hq1 => by rw [hfq] at hq1; simp at hq1⟩
                · simp only [accIdx_append, accIdx_cons_delivered, (abandonS_evs w).1,
                    accIdx_nil, accIdx_unhandled, List.append_nil, List.nil_append, i3, hfn]
                · intro q hq1; rw [hfq] at hq1; simp at hq1
                · simp only [delivIdx_append, delivIdx_cons_delivered, (abandonS_evs w).2,
                    dC, delivIdx_nil, delivIdx_unhandled, List.append_nil, List.nil_append]
                  simp
                · intro d hd1
                  simp only [delivIdx_append, delivIdx_cons_delivered, (abandonS_evs w).2,
                    dC, delivIdx_nil, delivIdx_unhandled, List.append_nil, List.nil_append] at hd1
                  simp at hd1
                  have := hpre.1
                  simp only [lbReq]
                  rw [hfn]
                  omega
              · rename_i next rest hq2
                split at h
                · exact absurd h (by simp)
                · rename_i w4 ev4 th4 heq4
                  have hnext : next ∈ w2.sQueue := by rw [hq2]; exact List.mem_cons_self _ _
                  have hqokr : QOK { w2 with sQueue := rest } := by
                    constructor
                    · have hch := i2.1
                      rw [hq2] at hch
                      simp only [qIdx, List.map_cons] at hch
                      exact (List.chain'_cons'.mp hch).2
                    · intro q hq3
                      exact i2.2 q (by rw [hq2]; exact List.mem_cons_of_mem _ hq3)
                  have hpw : List.Pairwise (· < ·) (qIdx w2.sQueue) :=
                    List.chain'_iff_pairwise.mp i2.1
                  have hpre4 : drainPre (Req.drainReq next) { w2 with sQueue := rest } := by
                    refine ⟨i2.2 next hnext, ?_, gC⟩
                    intro q hq3
                    rw [hq2] at hpw
                    simp only [qIdx, List.map_cons, List.pairwise_cons] at hpw
                    exact hpw.1 q.index (by simp [qIdx]; exact ⟨q, hq3, rfl⟩)
                  obtain ⟨j1, j2, j3, j4, j5, j6, j7⟩ := ih _ _ _ _ _ heq4 hqokr hpre4
                  have j1x : w2.sNextIndex ≤ w4.sNextIndex := j1
                  have j3x : accIdx ev4 = List.range' w2.sNextIndex (w4.sNextIndex - w2.sNextIndex) := j3
                  have j4x : ∀ q ∈ w4.sQueue, q ∈ rest ∨ w2.sNextIndex ≤ q.index := j4
                  have j6x : ∀ d ∈ delivIdx ev4, next.index ≤ d ∧ d < w4.sNextIndex := by
                    intro d hd1
                    simpa [lbReq] using j6 d hd1
                  have hanext : a.index < next.index := by
                    rcases i4 next hnext with hx | hx
                    · exact hpre.2.1 next hx
                    · exact lt_of_lt_of_le hpre.1 hx
                  simp only [Option.some.injEq, Prod.mk.injEq] at h
                  obtain ⟨hw, hev, hth⟩ := h
                  subst hev
                  subst hth
                  subst hw
                  refine ⟨?_, j2, ?_, ?_, ?_, ?_, fun hf => False.elim (by simpa [notDrain] using hf)⟩
                  · omega
                  · simp only [accIdx_append, accIdx_cons_delivered, (abandonS_evs w).1,
                      accIdx_nil, accIdx_unhandled, List.append_nil, List.nil_append, i3, j3x]
                    rw [range'_glue _ _ _ _ (by omega)]
                    congr 1
                    omega
                  · intro q hq3
                    rcases j4x q hq3 with hx | hx
                    · have : q ∈ w2.sQueue := by rw [hq2]; exact List.mem_cons_of_mem _ hx
                      rcases i4 q this with hy | hy
                      · exact Or.inl hy
                      · exact Or.inr hy
                    · exact Or.inr (by omega)
                  · simp only [delivIdx_append, delivIdx_cons_delivered, (abandonS_evs w).2,
                      dC, delivIdx_nil, delivIdx_unhandled, List.append_nil, List.nil_append]
                    refine chain_lt_glue _ _ next.index (by simp) j5 ?_ ?_
                    · intro d2 hd2
                      simp at hd2
                      omega
                    · intro d2 hd2
                      exact (j6x d2 hd2).1
                  · intro d hd1
                    simp only [delivIdx_append, delivIdx_cons_delivered, (abandonS_evs w).2,
                      dC, delivIdx_nil, delivIdx_unhandled, List.append_nil, List.nil_append] at hd1
                    simp only [lbReq]
                    rcases List.mem_cons.mp hd1 with rfl | hd1
                    · have := hpre.1
                      omega
                    · obtain ⟨l1, l2⟩ := j6x d hd1
                      omega
        · simp only [hcc, ne_eq, not_true_eq_false, not_false_eq_true, Bool.not_eq_true, Bool.false_eq_true, Bool.true_eq_false, if_true, if_false, ite_true, ite_false, reduceIte] at h
          simp only [Option.some.injEq, Prod.mk.injEq] at h
          obtain ⟨hw, hev, hth⟩ := h
          subst hev
          subst hth
          have hfq : w'.sQueue = [] := by rw [← hw]
          have hfn : w'.sNextIndex = w.sNextIndex := by rw [← hw]
          refine ⟨?_, ?_, ?_, ?_, ?_, ?_, fun hf => False.elim (by simpa [notDrain] using hf)⟩
          · rw [hfn]
          · exact ⟨by rw [hfq]; simp [qIdx], fun q hq1 => by rw [hfq] at hq1; simp at hq1⟩
          · simp only [accIdx_append, accIdx_cons_delivered, (abandonS_evs w).1,
              accIdx_nil, accIdx_unhandled, List.append_nil, List.nil_append, hfn]
            simp
          · intro q hq1; rw [hfq] at hq1; simp at hq1
          · simp only [delivIdx_append, (abandonS_evs w).2, delivIdx_nil]
            simp [delivIdx]
          · intro d hd1
            simp only [delivIdx_append, (abandonS_evs w).2, delivIdx_nil] at hd1
            simp [delivIdx] at hd1
    | cmds cs =>
      cases cs with
      | nil =>
        simp only [exec, Option.some.injEq, Prod.mk.injEq] at h
        obtain ⟨rfl, rfl, rfl⟩ := h
        exact ⟨le_refl _, hqok, by simp [accIdx], fun q hq1 => Or.inl hq1,
          by simp [delivIdx], by simp [delivIdx], fun x1 hdg => ⟨by simp [delivIdx], hdg⟩⟩
      | cons c rest =>
        cases c with
        | throwJs e =>
          simp only [exec, Option.some.injEq, Prod.mk.injEq] at h
          obtain ⟨rfl, rfl, rfl⟩ := h
          exact ⟨le_refl _, hqok, by simp [accIdx], fun q hq1 => Or.inl hq1,
            by simp [delivIdx], by simp [delivIdx], fun x1 hdg => ⟨by simp [delivIdx], hdg⟩⟩
        | emitNext v =>
          simp only [exec] at h
          split at h
          · exact absurd h (by simp)
          · rename_i w1 ev1 th1 heq1
            split at h
            · exact absurd h (by simp)
            · rename_i w2 ev2 th2 heq2
              obtain ⟨rfl⟩ := h.symm
              obtain ⟨i1, i2, i3, i4, i5, i6, i7⟩ := ih _ _ _ _ _ heq1 hqok trivial
              obtain ⟨j1, j2, j3, j4, j5, j6, j7⟩ := ih _ _ _ _ _ heq2 i2 trivial
              simp only [lbReq] at i6 j6 ⊢
              refine ⟨le_trans i1 j1, j2, ?_, ?_, ?_, ?_, ?_⟩
              · rw [accIdx_append, i3, j3, range'_glue _ _ _ _ (by omega)]
                congr 1
                omega
              · intro q hq1
                rcases j4 q hq1 with hx | hx
                · rcases i4 q hx with hy | hy
                  · exact Or.inl hy
                  · exact Or.inr hy
                · exact Or.inr (le_trans i1 hx)
              · rw [delivIdx_append]
                exact chain_lt_glue _ _ w1.sNextIndex i5 j5
                  (fun d hd1 => (i6 d hd1).2) (fun d hd1 => (j6 d hd1).1)
              · intro d hd1
                rw [delivIdx_append, List.mem_append] at hd1
                rcases hd1 with hd1 | hd1
                · exact ⟨(i6 d hd1).1, lt_of_lt_of_le (i6 d hd1).2 j1⟩
                · exact ⟨le_trans i1 (j6 d hd1).1, (j6 d hd1).2⟩
              · intro x1 hdg
                obtain ⟨d1, g1⟩ := i7 trivial hdg
                obtain ⟨d2, g2⟩ := j7 trivial g1
                rw [delivIdx_append, d1, d2]
                exact ⟨rfl, g2⟩
        | emitComplete =>
          simp only [exec] at h
          split at h
          · exact absurd h (by simp)
          · rename_i w1 ev1 th1 heq1
            split at h
            · exact absurd h (by simp)
            · rename_i w2 ev2 th2 heq2
              obtain ⟨rfl⟩ := h.symm
              obtain ⟨i1, i2, i3, i4, i5, i6, i7⟩ := ih _ _ _ _ _ heq1 hqok trivial
              obtain ⟨j1, j2, j3, j4, j5, j6, j7⟩ := ih _ _ _ _ _ heq2 i2 trivial
              simp only [lbReq] at i6 j6 ⊢
              refine ⟨le_trans i1 j1, j2, ?_, ?_, ?_, ?_, ?_⟩
              · rw [accIdx_append, i3, j3, range'_glue _ _ _ _ (by omega)]
                congr 1
                omega
              · intro q hq1
                rcases j4 q hq1 with hx | hx
                · rcases i4 q hx with hy | hy
                  · exact Or.inl hy
                  · exact Or.inr hy
                · exact Or.inr (le_trans i1 hx)
              · rw [delivIdx_append]
                exact chain_lt_glue _ _ w1.sNextIndex i5 j5
                  (fun d hd1 => (i6 d hd1).2) (fun d hd1 => (j6 d hd1).1)
              · intro d hd1
                rw [delivIdx_append, List.mem_append] at hd1
                rcases hd1 with hd1 | hd1
                · exact ⟨(i6 d hd1).1, lt_of_lt_of_le (i6 d hd1).2 j1⟩
                · exact ⟨le_trans i1 (j6 d hd1).1, (j6 d hd1).2⟩
              · intro x1 hdg
                obtain ⟨d1, g1⟩ := i7 trivial hdg
                obtain ⟨d2, g2⟩ := j7 trivial g1
                rw [delivIdx_append, d1, d2]
                exact ⟨rfl, g2⟩
        | emitError v =>
          simp only [exec] at h
          split at h
          · exact absurd h (by simp)
          · rename_i w1 ev1 th1 heq1
            split at h
            · exact absurd h (by simp)
            · rename_i w2 ev2 th2 heq2
              obtain ⟨rfl⟩ := h.symm
              obtain ⟨i1, i2, i3, i4, i5, i6, i7⟩ := ih _ _ _ _ _ heq1 hqok trivial
              obtain ⟨j1, j2, j3, j4, j5, j6, j7⟩ := ih _ _ _ _ _ heq2 i2 trivial
              simp only [lbReq] at i6 j6 ⊢
              refine ⟨le_trans i1 j1, j2, ?_, ?_, ?_, ?_, ?_⟩
              · rw [accIdx_append, i3, j3, range'_glue _ _ _ _ (by omega)]
                congr 1
                omega
              · intro q hq1
                rcases j4 q hq1 with hx | hx
                · rcases i4 q hx with hy | hy
                  · exact Or.inl hy
                  · exact Or.inr hy
                · exact Or.inr (le_trans i1 hx)
              · rw [delivIdx_append]
                exact chain_lt_glue _ _ w1.sNextIndex i5 j5
                  (fun d hd1 => (i6 d hd1).2) (fun d hd1 => (j6 d hd1).1)
              · intro d hd1
                rw [delivIdx_append, List.mem_append] at hd1
                rcases hd1 with hd1 | hd1
                · exact ⟨(i6 d hd1).1, lt_of_lt_of_le (i6 d hd1).2 j1⟩
                · exact ⟨le_trans i1 (j6 d hd1).1, (j6 d hd1).2⟩
              · intro x1 hdg
                obtain ⟨d1, g1⟩ := i7 trivial hdg
                obtain ⟨d2, g2⟩ := j7 trivial g1
                rw [delivIdx_append, d1, d2]
                exact ⟨rfl, g2⟩
        | emitIter it =>
          simp only [exec] at h
          split at h
          · exact absurd h (by simp)
          · rename_i w1 ev1 th1 heq1
            split at h
            · exact absurd h (by simp)
            · rename_i w2 ev2 th2 heq2
              obtain ⟨rfl⟩ := h.symm
              obtain ⟨i1, i2, i3, i4, i5, i6, i7⟩ := ih _ _ _ _ _ heq1 hqok trivial
              obtain ⟨j1, j2, j3, j4, j5, j6, j7⟩ := ih _ _ _ _ _ heq2 i2 trivial
              simp only [lbReq] at i6 j6 ⊢
              refine ⟨le_trans i1 j1, j2, ?_, ?_, ?_, ?_, ?_⟩
              · rw [accIdx_append, i3, j3, range'_glue _ _ _ _ (by omega)]
                congr 1
                omega
              · intro q hq1
                rcases j4 q hq1 with hx | hx
                · rcases i4 q hx with hy | hy
                  · exact Or.inl hy
                  · exact Or.inr hy
                · exact Or.inr (le_trans i1 hx)
              · rw [delivIdx_append]
                exact chain_lt_glue _ _ w1.sNextIndex i5 j5
                  (fun d hd1 => (i6 d hd1).2) (fun d hd1 => (j6 d hd1).1)
              · intro d hd1
                rw [delivIdx_append, List.mem_append] at hd1
                rcases hd1 with hd1 | hd1
                · exact ⟨(i6 d hd1).1, lt_of_lt_of_le (i6 d hd1).2 j1⟩
                · exact ⟨le_trans i1 (j6 d hd1).1, (j6 d hd1).2⟩
              · intro x1 hdg
                obtain ⟨d1, g1⟩ := i7 trivial hdg
                obtain ⟨d2, g2⟩ := j7 trivial g1
                rw [delivIdx_append, d1, d2]
                exact ⟨rfl, g2⟩
        | abandonChildCmd =>
          simp only [exec] at h
          split at h
          · exact absurd h (by simp)
          · rename_i w2 ev2 th2 heq2
            obtain ⟨rfl⟩ := h.symm
            obtain ⟨hph1, hcd1, hr1s, hr1c, hn1, hq1x⟩ := abandonChild_phi w
            obtain ⟨hqok1⟩ := And.intro (QOK_of_eq _ _ hq1x hn1 hqok) True.intro
            obtain ⟨j1, j2, j3, j4, j5, j6, j7⟩ := ih _ _ _ _ _ heq2 hqok1 trivial
            obtain ⟨ha, hdl⟩ := abandonChild_evs w
            simp only [lbReq] at j6 ⊢
            refine ⟨by rw [hn1] at j1; exact j1, j2, ?_, ?_, ?_, ?_, ?_⟩
            · rw [accIdx_append, ha, j3, hn1]
              simp
            · intro q hq1
              rcases j4 q hq1 with hx | hx
              · rw [hq1x] at hx
                exact Or.inl hx
              · rw [hn1] at hx
                exact Or.inr hx
            · rw [delivIdx_append, hdl]
              simpa using j5
            · intro d hd1
              rw [delivIdx_append, hdl] at hd1
              simp only [List.nil_append] at hd1
              obtain ⟨l1, l2⟩ := j6 d hd1
              rw [hn1] at l1
              exact ⟨l1, l2⟩
            · intro x1 hdg
              obtain ⟨d2, g2⟩ := j7 trivial (abandonChild_DGuard w hdg)
              rw [delivIdx_append, hdl, d2]
              exact ⟨rfl, g2⟩
        | abandonStepCmd =>
          simp only [exec] at h
          split at h
          · exact absurd h (by simp)
          · rename_i w2 ev2 th2 heq2
            obtain ⟨rfl⟩ := h.symm
            obtain ⟨hph1, hcd1, hq1x, hr1s, he1c, hn1⟩ := abandonS_phi w
            obtain ⟨hqok1⟩ := And.intro (QOK_of_eq _ _ hq1x hn1 hqok) True.intro
            obtain ⟨j1, j2, j3, j4, j5, j6, j7⟩ := ih _ _ _ _ _ heq2 hqok1 trivial
            obtain ⟨ha, hdl⟩ := abandonS_evs w
            simp only [lbReq] at j6 ⊢
            refine ⟨by rw [hn1] at j1; exact j1, j2, ?_, ?_, ?_, ?_, ?_⟩
            · rw [accIdx_append, ha, j3, hn1]
              simp
            · intro q hq1
              rcases j4 q hq1 with hx | hx
              · rw [hq1x] at hx
                exact Or.inl hx
              · rw [hn1] at hx
                exact Or.inr hx
            · rw [delivIdx_append, hdl]
              simpa using j5
            · intro d hd1
              rw [delivIdx_append, hdl] at hd1
              simp only [List.nil_append] at hd1
              obtain ⟨l1, l2⟩ := j6 d hd1
              rw [hn1] at l1
              exact ⟨l1, l2⟩
            · intro x1 hdg
              obtain ⟨d2, g2⟩ := j7 trivial (abandonS_DGuard w hdg)
              rw [delivIdx_append, hdl, d2]
              exact ⟨rfl, g2⟩

/-- Every drain pass leaves the step with `_queueEnd = null` and no
reachable queued nodes. -/
lemma exec_drain_clears (beh : Behavior) :
    ∀ (f : Nat) (a : QNode) (w : World) (r : World × List Ev × Option JSVal),
      exec beh f (.drainReq a) w = some r →
      r.1.sQueueActive = false ∧ r.1.sQueue = [] := by
  intro f
  induction f with
  | zero => intro a w r h; simp [exec] at h
  | succ n ih =>
    intro a w r h
    by_cases hdn : a.iteration.done = true
    all_goals
      simp only [exec, hdn, ne_eq, not_true_eq_false, not_false_eq_true, Bool.not_eq_true,
        Bool.false_eq_true, Bool.true_eq_false, if_true, if_false, ite_true, ite_false,
        reduceIte] at h
    case pos =>
      by_cases hcc : (abandonS w).1.cController = true
      all_goals simp only [hcc, ne_eq, not_true_eq_false, Bool.true_eq_false,
        Bool.not_eq_true, if_true, if_false, ite_true, ite_false, reduceIte] at h
      · split at h
        · exact absurd h (by simp)
        · rename_i w2 evC e heq
          split at h
          · obtain ⟨rfl⟩ := h.symm
            exact ⟨rfl, rfl⟩
          · obtain ⟨rfl⟩ := h.symm
            exact ⟨rfl, rfl⟩
        · rename_i w2 evC heq
          split at h
          · obtain ⟨rfl⟩ := h.symm
            exact ⟨rfl, rfl⟩
          · split at h
            · obtain ⟨rfl⟩ := h.symm
              exact ⟨rfl, rfl⟩
            · rename_i next rest hq2
              split at h
              · exact absurd h (by simp)
              · rename_i w4 ev4 th4 heq4
                have hx := ih next _ (w4, ev4, th4) heq4
                obtain ⟨rfl⟩ := h.symm
                exact hx
      · obtain ⟨rfl⟩ := h.symm
        exact ⟨rfl, rfl⟩
    case neg =>
      by_cases hcc : w.cController = true
      all_goals simp only [hcc, ne_eq, not_true_eq_false, Bool.true_eq_false,
        Bool.not_eq_true, if_true, if_false, ite_true, ite_false, reduceIte] at h
      · split at h
        · exact absurd h (by simp)
        · rename_i w2 evC e heq
          split at h
          · obtain ⟨rfl⟩ := h.symm
            exact ⟨rfl, rfl⟩
          · obtain ⟨rfl⟩ := h.symm
            exact ⟨rfl, rfl⟩
        · rename_i w2 evC heq
          split at h
          · obtain ⟨rfl⟩ := h.symm
            exact ⟨rfl, rfl⟩
          · split at h
            · obtain ⟨rfl⟩ := h.symm
              exact ⟨rfl, rfl⟩
            · rename_i next rest hq2
              split at h
              · exact absurd h (by simp)
              · rename_i w4 ev4 th4 heq4
                have hx := ih next _ (w4, ev4, th4) heq4
                obtain ⟨rfl⟩ := h.symm
                exact hx
      · obtain ⟨rfl⟩ := h.symm
        exact ⟨rfl, rfl⟩

/-- Between top-level emits the step has no active drain and an empty queue;
an emit preserves that. -/
lemma exec_ev_T (beh : Behavior) (f : Nat) (it : Iteration) (w : World)
    (r : World × List Ev × Option JSVal) (h : exec beh f (.ev it) w = some r)
    (ha : w.sQueueActive = false) (hq0 : w.sQueue = []) :
    r.1.sQueueActive = false ∧ r.1.sQueue = [] := by
  cases f with
  | zero => simp [exec] at h
  | succ n =>
    by_cases hs : w.sState = .Open
    · by_cases hd : it.done = true
      all_goals by_cases hc : w.sChild = true
      · simp only [exec, hs, hd, hc, ha, ne_eq, not_true_eq_false, not_false_eq_true, Bool.not_eq_true, Bool.false_eq_true, Bool.true_eq_false, if_true, if_false, ite_true, ite_false, reduceIte] at h
        split at h
        · exact absurd h (by simp)
        · rename_i w1 ev1 th1 heq
          have hx := exec_drain_clears beh n _ _ (w1, ev1, th1) heq
          obtain ⟨rfl⟩ := h.symm
          exact hx
      · simp only [exec, hs, hd, hc, ne_eq, not_true_eq_false, not_false_eq_true, Bool.not_eq_true, Bool.false_eq_true, Bool.true_eq_false, if_true, if_false, ite_true, ite_false, reduceIte] at h
        obtain ⟨rfl⟩ := h.symm
        exact ⟨ha, hq0⟩
      · simp only [exec, hs, hd, hc, ha, ne_eq, not_true_eq_false, not_false_eq_true, Bool.not_eq_true, Bool.false_eq_true, Bool.true_eq_false, if_true, if_false, ite_true, ite_false, reduceIte] at h
        split at h
        · exact absurd h (by simp)
        · rename_i w1 ev1 th1 heq
          have hx := exec_drain_clears beh n _ _ (w1, ev1, th1) heq
          obtain ⟨rfl⟩ := h.symm
          exact hx
      · simp only [exec, hs, hd, hc, ne_eq, not_true_eq_false, not_false_eq_true, Bool.not_eq_true, Bool.false_eq_true, Bool.true_eq_false, if_true, if_false, ite_true, ite_false, reduceIte] at h
        obtain ⟨rfl⟩ := h.symm
        exact ⟨ha, hq0⟩
    · simp only [exec, hs, ne_eq, not_true_eq_false, not_false_eq_true, if_true,
        ite_true, reduceIte] at h
      obtain ⟨rfl⟩ := h.symm
      exact ⟨ha, hq0⟩

/-- Index discipline over a whole run from a quiescent step: the assigned
indices are exactly the consecutive range, and the delivered indices are
strictly increasing. -/
lemma runOps_idx (beh : Behavior) (f : Nat) :
    ∀ (ops : List TopOp) (w w' : World) (tr : List Ev),
      runOps beh f ops w = some (w', tr) →
      QOK w → w.sQueueActive = false → w.sQueue = [] →
      ( w.sNextIndex ≤ w'.sNextIndex
      ∧ accIdx tr = List.range' w.sNextIndex (w'.sNextIndex - w.sNextIndex)
      ∧ List.Chain' (· < ·) (delivIdx tr)
      ∧ (∀ d ∈ delivIdx tr, w.sNextIndex ≤ d ∧ d < w'.sNextIndex)
      ∧ QOK w' ∧ w'.sQueueActive = false ∧ w'.sQueue = [] ) := by
  intro ops
  induction ops with
  | nil =>
    intro w w' tr h hqok ha hq0
    simp only [runOps, Option.some.injEq, Prod.mk.injEq] at h
    obtain ⟨rfl, rfl⟩ := h
    exact ⟨le_refl _, by simp [accIdx], by simp [delivIdx], by simp [delivIdx],
      hqok, ha, hq0⟩
  | cons op rest ih =>
    intro w w' tr h hqok ha hq0
    cases op with
    | emit it =>
      simp only [runOps] at h
      cases hex : exec beh f (.ev it) w with
      | none => simp [hex] at h
      | some r =>
        obtain ⟨w1, ev1, th1⟩ := r
        simp only [hex] at h
        cases hro : runOps beh f rest w1 with
        | none => simp [hro] at h
        | some r2 =>
          obtain ⟨w2, ev2⟩ := r2
          simp only [hro, Option.some.injEq, Prod.mk.injEq] at h
          obtain ⟨rfl, rfl⟩ := h
          obtain ⟨i1, i2, i3, i4, i5, i6, i7⟩ := exec_idx beh f _ _ _ _ _ hex hqok trivial
          obtain ⟨ht1, ht2⟩ := exec_ev_T beh f it w _ hex ha hq0
          obtain ⟨j1, j3, j5, j6, j2, ja, jq⟩ := ih _ _ _ hro i2 ht1 ht2
          simp only [lbReq] at i6
          refine ⟨le_trans i1 j1, ?_, ?_, ?_, j2, ja, jq⟩
          · rw [accIdx_append, i3, j3, range'_glue _ _ _ _ (by omega)]
            congr 1
            omega
          · rw [delivIdx_append]
            exact chain_lt_glue _ _ w1.sNextIndex i5 j5
              (fun d hd1 => (i6 d hd1).2) (fun d hd1 => (j6 d hd1).1)
          · intro d hd1
            rw [delivIdx_append, List.mem_append] at hd1
            rcases hd1 with hd1 | hd1
            · exact ⟨(i6 d hd1).1, lt_of_lt_of_le (i6 d hd1).2 j1⟩
            · exact ⟨le_trans i1 (j6 d hd1).1, (j6 d hd1).2⟩
    | unsubChild =>
      simp only [runOps] at h
      cases hro : runOps beh f rest (abandonChildCascade w).1 with
      | none => simp [hro] at h
      | some r2 =>
        obtain ⟨w2, ev2⟩ := r2
        simp only [hro, Option.some.injEq, Prod.mk.injEq] at h
        obtain ⟨rfl, rfl⟩ := h
        obtain ⟨hph1, hcd1, hr1s, hr1c, hn1, hq1x⟩ := abandonChild_phi w
        have hqok1 := QOK_of_eq _ _ hq1x hn1 hqok
        have hta : (abandonChildCascade w).1.sQueueActive = false ∨ True := Or.inr trivial
        have ht1 : (abandonChildCascade w).1.sQueueActive = false := by
          by_cases hc : w.cState = .Closed
          · simpa [abandonChildCascade, hc] using ha
          · by_cases hp : w.cParent = true <;>
              simp [abandonChildCascade, hc, hp, ha]
        have ht2 : (abandonChildCascade w).1.sQueue = [] := by rw [hq1x]; exact hq0
        obtain ⟨j1, j3, j5, j6, j2, ja, jq⟩ := ih _ _ _ hro hqok1 ht1 ht2
        rw [hn1] at j1 j3 j6
        obtain ⟨hae, hde⟩ := abandonChild_evs w
        refine ⟨j1, ?_, ?_, ?_, j2, ja, jq⟩
        · rw [accIdx_append, hae, j3]
          simp
        · rw [delivIdx_append, hde]
          simpa using j5
        · intro d hd1
          rw [delivIdx_append, hde] at hd1
          simp only [List.nil_append] at hd1
          exact j6 d hd1
    | abandonStepOp =>
      simp only [runOps] at h
      cases hro : runOps beh f rest (abandonS w).1 with
      | none => simp [hro] at h
      | some r2 =>
        obtain ⟨w2, ev2⟩ := r2
        simp only [hro, Option.some.injEq, Prod.mk.injEq] at h
        obtain ⟨rfl, rfl⟩ := h
        obtain ⟨hph1, hcd1, hq1x, hr1s, he1c, hn1⟩ := abandonS_phi w
        have hqok1 := QOK_of_eq _ _ hq1x hn1 hqok
        have ht1 : (abandonS w).1.sQueueActive = false := by
          by_cases hc : w.sState = .Closed
          · simpa [abandonS, hc] using ha
          · simp [abandonS, hc]
        have ht2 : (abandonS w).1.sQueue = [] := by rw [hq1x]; exact hq0
        obtain ⟨j1, j3, j5, j6, j2, ja, jq⟩ := ih _ _ _ hro hqok1 ht1 ht2
        rw [hn1] at j1 j3 j6
        obtain ⟨hae, hde⟩ := abandonS_evs w
        refine ⟨j1, ?_, ?_, ?_, j2, ja, jq⟩
        · rw [accIdx_append, hae, j3]
          simp
        · rw [delivIdx_append, hde]
          simpa using j5
        · intro d hd1
          rw [delivIdx_append, hde] at hd1
          simp only [List.nil_append] at hd1
          exact j6 d hd1

lemma abandonChild_T (w : World) (ha : w.sQueueActive = false) :
    (abandonChildCascade w).1.sQueueActive = false := by
  by_cases hc : w.cState = .Closed
  · simpa [abandonChildCascade, hc] using ha
  · by_cases hp : w.cParent = true <;> simp [abandonChildCascade, hc, hp, ha]

/-- The link invariant holds after any run from the freshly wired pair. -/
lemma runOps_linkInv (beh : Behavior) (f : Nat) :
    ∀ (ops : List TopOp) (w w' : World) (tr : List Ev),
      runOps beh f ops w = some (w', tr) → LinkInv w → LinkInv w' := by
  intro ops
  induction ops with
  | nil =>
    intro w w' tr h hinv
    simp only [runOps, Option.some.injEq, Prod.mk.injEq] at h
    obtain ⟨rfl, rfl⟩ := h
    exact hinv
  | cons op rest ih =>
    intro w w' tr h hinv
    cases op with
    | emit it =>
      simp only [runOps] at h
      cases hex : exec beh f (.ev it) w with
      | none => simp [hex] at h
      | some r =>
        obtain ⟨w1, ev1, th1⟩ := r
        simp only [hex] at h
        cases hro : runOps beh f rest w1 with
        | none => simp [hro] at h
        | some r2 =>
          obtain ⟨w2, ev2⟩ := r2
          simp only [hro, Option.some.injEq, Prod.mk.injEq] at h
          obtain ⟨rfl, rfl⟩ := h
          exact ih _ _ _ hro (exec_linkInv beh f _ _ _ _ _ hex hinv)
    | unsubChild =>
      simp only [runOps] at h
      cases hro : runOps beh f rest (abandonChildCascade w).1 with
      | none => simp [hro] at h
      | some r2 =>
        obtain ⟨w2, ev2⟩ := r2
        simp only [hro, Option.some.injEq, Prod.mk.injEq] at h
        obtain ⟨rfl, rfl⟩ := h
        exact ih _ _ _ hro (abandonChild_linkInv w hinv)
    | abandonStepOp =>
      simp only [runOps] at h
      cases hro : runOps beh f rest (abandonS w).1 with
      | none => simp [hro] at h
      | some r2 =>
        obtain ⟨w2, ev2⟩ := r2
        simp only [hro, Option.some.injEq, Prod.mk.injEq] at h
        obtain ⟨rfl, rfl⟩ := h
        exact ih _ _ _ hro (abandonS_linkInv w hinv)



/-- Claim C1: the specification states that a re-entrant emit made while an
earlier event of the same step is being delivered is appended to the pending
queue and delivered to the child after the in-flight delivery returns.  The
code evaluates differently: the drain loop destructures `nextEvent` from the
current node before invoking the handler (core.mjs line 244), so the node the
re-entrant `runEvent` links behind the tail (line 235) is never picked up at
`active = nextEvent` (line 257).  Here a controller that re-emits `2` while
receiving `(1, 0)` has the re-emission accepted into the queue (it is
assigned index 1 and the final `_nextIndex` is 2) yet the drain ends without
delivering it: the child sees only `(1, 0)`. -/
theorem c1_reentrant_emission_queued_but_never_delivered :
    runOps (fun it idx => if idx = 0 ∧ it.done = false then [Cmd.emitNext (.jsNum 2)] else [])
        10 [.emit ⟨false, .jsNum 1⟩] init2 =
      some ({ init2 with sNextIndex := 2 },
        [.accepted ⟨false, .jsNum 1⟩ 0, .delivered ⟨false, .jsNum 1⟩ 0,
         .accepted ⟨false, .jsNum 2⟩ 1]) ∧
    Ev.delivered ⟨false, .jsNum 2⟩ 1 ∉
      [Ev.accepted ⟨false, .jsNum 1⟩ 0, Ev.delivered ⟨false, .jsNum 1⟩ 0,
       Ev.accepted ⟨false, .jsNum 2⟩ 1] := by
  exact ⟨by decide, by decide⟩

/-- Claim C2: accepting a terminal iteration moves the step out of `Open`
before any delivery is attempted, every emit on a non-open step is a pure
no-op that reports a diagnostic and delivers nothing, and consequently any
run delivers at most one terminal iteration to the child. -/
theorem c2_terminal_accepted_once :
    (∀ (beh : Behavior) (f : Nat) (it : Iteration) (w : World), w.sState ≠ .Open →
      exec beh (f + 1) (.ev it) w = some (w, [.diag], none)) ∧
    (∀ (beh : Behavior) (f : Nat) (it : Iteration) (w : World)
        (r : World × List Ev × Option JSVal), it.done = true → w.sState = .Open →
      exec beh f (.ev it) w = some r → r.1.sState ≠ .Open) ∧
    (∀ (beh : Behavior) (f : Nat) (ops : List TopOp) (w' : World) (tr : List Ev),
      runOps beh f ops init2 = some (w', tr) → cntDD tr ≤ 1) := by
  refine ⟨runEvent_nonOpen_noop, runEvent_terminal_leaves_open, ?_⟩
  intro beh f ops w' tr h
  have hb := runOps_phi_bound beh f ops init2 w' tr h
  have hinit : phiW init2 = 1 := rfl
  omega

/-- Witness for C2 at concrete inputs: a `next` on a `Closing` step is the
diagnostic no-op, and the run that completes once delivers exactly one
terminal iteration. -/
theorem c2_terminal_accepted_once_witness :
    (exec (fun _ _ => []) 4 (.ev ⟨false, .jsNum 5⟩) { init2 with sState := .Closing } =
      some ({ init2 with sState := .Closing }, [.diag], none)) ∧
    cntDD [Ev.accepted completeIter 0, Ev.closer 0, Ev.delivered completeIter 0] ≤ 1 :=
  ⟨c2_terminal_accepted_once.1 (fun _ _ => []) 3 ⟨false, .jsNum 5⟩ _ (by decide),
   c2_terminal_accepted_once.2.2 (fun _ _ => []) 10 [.emit completeIter]
     { init2 with sState := .Closed, sChild := false, sNextIndex := 1 }
     [Ev.accepted completeIter 0, Ev.closer 0, Ev.delivered completeIter 0] (by decide)⟩

/-- Claim C3: abandoning a materialized three-stage pipeline A→B→C from the
consumer-side step collects the teardown callbacks while walking the parent
links to the root, marks every visited step `Closed` with its links cleared,
and then runs the callbacks root-first: A's teardown, then B's, then C's. -/
theorem c3_cascade_runs_teardowns_root_first (a b c : Nat) :
    abandonB (mkChain3 a b c) 0 =
      ([ ⟨.Closed, none, none, false, some c⟩,
         ⟨.Closed, none, none, false, some b⟩,
         ⟨.Closed, none, none, false, some a⟩ ], [a, b, c]) := rfl

/-- Claim C4: the specification promises that a listener subscribing during
delivery of event N observes exactly the events emitted after N.  The live
`SyncSubject.subscribe` (core.mjs lines 315-318) however constructs a
`TxObservable` it immediately discards and registers nothing, so a listener
subscribed from inside another listener's handler during event `100` is
never invoked at all: the listener list never changes and only listener `0`
fires for the three events, never listener `1`. -/
theorem c4_live_subscribe_registers_nothing :
    broadcast (fun rid tag => if rid = 0 ∧ tag = 100 then [BEff.subscribeCall 1] else [])
        [⟨0, true, none⟩] [100, 101, 102] 0 =
      some ([⟨0, true, none⟩], [[0], [0], [0]]) := by decide

/-- Claim C5: a listener that unsubscribes itself while being invoked for an
event is not invoked for any later event, while the listeners after it keep
firing for that event and all later ones; its dead record is only removed
lazily by the next broadcast walk (a leading dead record is dropped from the
head, a mid-list one is spliced out via its predecessor), never at
unsubscribe time. -/
theorem c5_mid_broadcast_unsubscribe_lazy_splice :
    (broadcast (fun rid tag => if rid = 1 ∧ tag = 100 then [BEff.unsub 1] else [])
        [⟨0, true, none⟩, ⟨1, true, none⟩, ⟨2, true, none⟩] [100] 0 =
      some ([⟨0, true, none⟩, ⟨1, false, none⟩, ⟨2, true, none⟩], [[0, 1, 2]])) ∧
    (broadcast (fun rid tag => if rid = 1 ∧ tag = 100 then [BEff.unsub 1] else [])
        [⟨0, true, none⟩, ⟨1, true, none⟩, ⟨2, true, none⟩] [100, 101, 102] 0 =
      some ([⟨0, true, none⟩, ⟨2, true, none⟩], [[0, 1, 2], [0, 2], [0, 2]])) ∧
    (broadcast (fun rid tag => if rid = 0 ∧ tag = 100 then [BEff.unsub 0] else [])
        [⟨0, true, none⟩, ⟨1, true, none⟩, ⟨2, true, none⟩] [100, 101] 0 =
      some ([⟨1, true, none⟩, ⟨2, true, none⟩], [[0, 1, 2], [1, 2]])) := by
  exact ⟨by decide, by decide, by decide⟩

/-- Claim C6: when the child's controller throws while processing a delivered
iteration, the drain's catch runs the abandon cascade on the step itself and
then redirects the thrown value to the child as an Error iteration when the
child is still `Open`, or reports it through `uncaughtErrorWhileRunning`
otherwise; and no emit ever propagates an exception back to its caller. -/
theorem c6_throwing_controller_is_caught :
    (∀ (beh : Behavior) (f : Nat) (a : QNode) (w w1 : World) (ev1 : List Ev) (e : JSVal),
      a.iteration.done = false → w.cController = true →
      exec beh f (.cmds (beh a.iteration a.index)) w = some (w1, ev1, some e) →
      exec beh (f + 1) (.drainReq a) w =
        some (if (abandonS w1).1.cState = .Open
          then ({ (childError (abandonS w1).1 e).1 with sQueueActive := false, sQueue := [] },
            Ev.delivered a.iteration a.index :: ev1 ++
              (abandonS w1).2 ++ (childError (abandonS w1).1 e).2, none)
          else ({ (abandonS w1).1 with sQueueActive := false, sQueue := [] },
            Ev.delivered a.iteration a.index :: ev1 ++
              (abandonS w1).2 ++ [Ev.unhandled e], none))) ∧
    (∀ (beh : Behavior) (f : Nat) (it : Iteration) (w : World)
        (r : World × List Ev × Option JSVal),
      exec beh f (.ev it) w = some r → r.2.2 = none) := by
  refine ⟨?_, exec_ev_no_throw⟩
  intro beh f a w w1 ev1 e hdn hcc hrun
  simp only [exec, hdn, hcc, ne_eq, not_true_eq_false, not_false_eq_true, Bool.not_eq_true,
    Bool.false_eq_true, Bool.true_eq_false, if_true, if_false, ite_true, ite_false,
    reduceIte, hrun]
  by_cases hopen : (abandonS w1).1.cState = .Open <;> simp [hopen]

/-- Witness for C6 at a concrete throwing controller: the thrown string is
redirected to the still-open child as an Error iteration after the step
abandoned itself, and a concrete emit returns with an empty throw channel. -/
theorem c6_throwing_controller_is_caught_witness :
    (exec (fun _ _ => [Cmd.throwJs (.jsStr "boom")]) 4
        (.drainReq ⟨⟨false, .jsNum 1⟩, 0⟩) init2 =
      some (if (abandonS init2).1.cState = .Open
        then ({ (childError (abandonS init2).1 (.jsStr "boom")).1 with
            sQueueActive := false, sQueue := [] },
          Ev.delivered ⟨false, .jsNum 1⟩ 0 :: [] ++
            (abandonS init2).2 ++ (childError (abandonS init2).1 (.jsStr "boom")).2, none)
        else ({ (abandonS init2).1 with sQueueActive := false, sQueue := [] },
          Ev.delivered ⟨false, .jsNum 1⟩ 0 :: [] ++
            (abandonS init2).2 ++ [Ev.unhandled (.jsStr "boom")], none))) ∧
    ((some (init2, ([] : List Ev), (none : Option JSVal)) :
        Option (World × List Ev × Option JSVal)) = some (init2, [], none)) :=
  ⟨c6_throwing_controller_is_caught.1 (fun _ _ => [Cmd.throwJs (.jsStr "boom")]) 3
      ⟨⟨false, .jsNum 1⟩, 0⟩ init2 init2 [] (.jsStr "boom") (by decide) (by decide)
      (by decide),
   rfl⟩

/-- Claim C7: `abandon` is idempotent (on an already-`Closed` step it changes
nothing and runs no teardown callbacks), the first `unsubscribe` performs
exactly the abandon cascade's teardown pass, and a second `unsubscribe` on
the same subscription changes nothing and runs nothing. -/
theorem c7_abandon_and_cancel_idempotent :
    (∀ (h : HeapB) (i : Nat) (tx : StepB), h.get? i = some tx → tx.bState = .Closed →
      abandonB h i = (h, [])) ∧
    (∀ h : HeapB, (cancelB ⟨true⟩ h).2.2 = (abandonB h 0).2) ∧
    (∀ h : HeapB,
      cancelB (cancelB ⟨true⟩ h).1 (cancelB ⟨true⟩ h).2.1 =
        ((cancelB ⟨true⟩ h).1, (cancelB ⟨true⟩ h).2.1, [])) := by
  refine ⟨?_, ?_, ?_⟩
  · intro h i tx hget hcl
    have hget2 : h[i]? = some tx := by rwa [← List.get?_eq_getElem?]
    simp [abandonB, hget2, hcl]
  · intro h
    simp [cancelB]
  · intro h
    simp [cancelB]

/-- Witness for C7: abandoning a closed single-step heap is a no-op. -/
theorem c7_abandon_and_cancel_idempotent_witness :
    abandonB [⟨.Closed, none, none, false, some 7⟩] 0 =
      ([⟨.Closed, none, none, false, some 7⟩], []) :=
  c7_abandon_and_cancel_idempotent.1 [⟨.Closed, none, none, false, some 7⟩] 0
    ⟨.Closed, none, none, false, some 7⟩ rfl rfl

/-- Claim C8 counterexample: the claim states that once either side of a
parent/child pair is torn down both links are cleared, so no live step keeps
a link to a `Closed` step.  Delivering a terminal iteration to the freshly
wired pair abandons the parent step (clearing its own links) but leaves the
still-`Open` child's `_parent` pointing at the now-`Closed` step, falsifying
the claim as stated. -/
theorem c8_counterexample_child_parent_link_survives :
    (runOps (fun _ _ => []) 10 [.emit completeIter] init2).map
        (fun r => (r.1.sState, r.1.sChild, r.1.cState, r.1.cParent)) =
      some (.Closed, false, .Open, true) := by decide

/-- Claim C8 as amended: while both steps are alive the mutual links are in
place — a cleared link implies its owner has been closed, since the abandon
cascade clears the links of exactly the steps it closes; but the cascade does
not visit the initiating step's child, whose parent link keeps pointing at
the closed step until the child itself is torn down. -/
theorem c8_links_only_cleared_on_closed_steps :
    ∀ (beh : Behavior) (f : Nat) (ops : List TopOp) (w' : World) (tr : List Ev),
      runOps beh f ops init2 = some (w', tr) →
      (w'.sChild = false → w'.sState = .Closed) ∧
        (w'.cParent = false → w'.cState = .Closed) := by
  intro beh f ops w' tr h
  exact runOps_linkInv beh f ops init2 w' tr h ⟨by simp [init2], by simp [init2]⟩

/-- Witness for the amended C8 at the terminal-delivery run. -/
theorem c8_links_only_cleared_on_closed_steps_witness :
    (({ init2 with sState := .Closed, sChild := false, sNextIndex := 1 } : World).sChild = false →
      ({ init2 with sState := .Closed, sChild := false, sNextIndex := 1 } : World).sState = .Closed) ∧
    (({ init2 with sState := .Closed, sChild := false, sNextIndex := 1 } : World).cParent = false →
      ({ init2 with sState := .Closed, sChild := false, sNextIndex := 1 } : World).cState = .Closed) :=
  c8_links_only_cleared_on_closed_steps (fun _ _ => []) 10 [.emit completeIter]
    { init2 with sState := .Closed, sChild := false, sNextIndex := 1 }
    [Ev.accepted completeIter 0, Ev.closer 0, Ev.delivered completeIter 0] (by decide)

/-- Claim C9: an emit on a step with no child performs only the state
transition — no index is consumed and nothing is queued; over any run the
assigned sequence indices are exactly the consecutive integers starting at
0, and the (iteration, index) pairs the child's controller receives arrive
in strictly increasing index order. -/
theorem c9_sequence_index_discipline :
    (∀ (beh : Behavior) (f : Nat) (it : Iteration) (w : World),
      w.sState = .Open → w.sChild = false →
      exec beh (f + 1) (.ev it) w =
        some (if it.done = true then { w with sState := .Closing } else w, [], none)) ∧
    (∀ (beh : Behavior) (f : Nat) (ops : List TopOp) (w' : World) (tr : List Ev),
      runOps beh f ops init2 = some (w', tr) →
      accIdx tr = List.range' 0 w'.sNextIndex ∧ List.Chain' (· < ·) (delivIdx tr)) := by
  constructor
  · intro beh f it w hs hc
    by_cases hd : it.done = true <;> simp [exec, hs, hc, hd]
  · intro beh f ops w' tr h
    have hqok : QOK init2 := ⟨by simp [qIdx, init2], by simp [init2]⟩
    obtain ⟨j1, j3, j5, j6, j2, ja, jq⟩ := runOps_idx beh f ops init2 w' tr h hqok rfl rfl
    refine ⟨?_, j5⟩
    simpa using j3

/-- Witness for C9: an emit on a childless open step leaves the index
counter alone, and the two-emit run assigns indices 0 and 1 and delivers
them in that order. -/
theorem c9_sequence_index_discipline_witness :
    (exec (fun _ _ => []) 4 (.ev ⟨false, .jsNum 9⟩) { init2 with sChild := false } =
      some ({ init2 with sChild := false }, [], none)) ∧
    (accIdx [Ev.accepted ⟨false, .jsNum 1⟩ 0, Ev.delivered ⟨false, .jsNum 1⟩ 0,
        Ev.accepted ⟨false, .jsNum 2⟩ 1, Ev.delivered ⟨false, .jsNum 2⟩ 1] =
      List.range' 0 2 ∧
     List.Chain' (· < ·) (delivIdx [Ev.accepted ⟨false, .jsNum 1⟩ 0,
        Ev.delivered ⟨false, .jsNum 1⟩ 0, Ev.accepted ⟨false, .jsNum 2⟩ 1,
        Ev.delivered ⟨false, .jsNum 2⟩ 1])) :=
  ⟨c9_sequence_index_discipline.1 (fun _ _ => []) 3 ⟨false, .jsNum 9⟩
      { init2 with sChild := false } rfl rfl,
   c9_sequence_index_discipline.2 (fun _ _ => []) 10
     [.emit ⟨false, .jsNum 1⟩, .emit ⟨false, .jsNum 2⟩]
     { init2 with sNextIndex := 2 }
     [Ev.accepted ⟨false, .jsNum 1⟩ 0, Ev.delivered ⟨false, .jsNum 1⟩ 0,
      Ev.accepted ⟨false, .jsNum 2⟩ 1, Ev.delivered ⟨false, .jsNum 2⟩ 1] (by decide)⟩

/-- Claim C10: the terminal step built by `endWithHandler` discriminates
completion from error purely by the truthiness of the terminal value:
`error(e)` wraps `e` in the always-truthy `{error: e}` object so `onError`
receives `e`; `complete()` sends `undefined` so `onComplete` runs; a terminal
iteration pushed via `iter` with a truthy value is routed to `onError` with
`value.error` (or reported as an unhandled failure when no `onError` was
supplied), while a falsy terminal value is routed to `onComplete`. -/
theorem c10_terminal_routing_by_truthiness :
    (∀ e : JSVal, truthy (.errObj e) = true) ∧
    (∀ e : JSVal, errWrap e = ⟨true, .errObj e⟩) ∧
    (∀ (onNext onComplete : Bool) (e : JSVal),
      endController onNext onComplete true (errWrap e) = .callError e) ∧
    (∀ (onNext onError : Bool),
      endController onNext true onError completeIter = .callComplete) ∧
    (∀ (onNext onComplete : Bool) (v : JSVal), truthy v = true →
      endController onNext onComplete true ⟨true, v⟩ = .callError (errField v)) ∧
    (∀ (onNext onError : Bool) (v : JSVal), truthy v = false →
      endController onNext true onError ⟨true, v⟩ = .callComplete) ∧
    (∀ (onNext onComplete : Bool) (v : JSVal), truthy v = true →
      endController onNext onComplete false ⟨true, v⟩ = .reportUnhandled (errField v)) := by
  refine ⟨fun e => rfl, fun e => rfl, ?_, ?_, ?_, ?_, ?_⟩
  · intro onNext onComplete e
    simp [endController, errWrap, truthy, errField]
  · intro onNext onError
    simp [endController, completeIter, truthy]
  · intro onNext onComplete v hv
    simp [endController, hv]
  · intro onNext onError v hv
    simp [endController, hv]
  · intro onNext onComplete v hv
    simp [endController, hv]

/-- Witness for C10 at concrete values: a falsy error payload still reaches
`onError` because the wrapper object is truthy, and a truthy terminal value
without an `onError` callback is reported as unhandled. -/
theorem c10_terminal_routing_by_truthiness_witness :
    (truthy (.errObj .jsUndefined) = true) ∧
    (endController true true true (errWrap .jsUndefined) = .callError .jsUndefined) ∧
    (endController true true true ⟨true, .jsNum 3⟩ = .callError .jsUndefined) ∧
    (endController true true true ⟨true, .jsNum 0⟩ = .callComplete) ∧
    (endController true true false ⟨true, .errObj (.jsStr "e")⟩ =
      .reportUnhandled (.jsStr "e")) :=
  ⟨c10_terminal_routing_by_truthiness.1 .jsUndefined,
   c10_terminal_routing_by_truthiness.2.2.1 true true .jsUndefined,
   c10_terminal_routing_by_truthiness.2.2.2.2.1 true true (.jsNum 3) rfl,
   c10_terminal_routing_by_truthiness.2.2.2.2.2.1 true true (.jsNum 0) rfl,
   c10_terminal_routing_by_truthiness.2.2.2.2.2.2 true false (.errObj (.jsStr "e")) rfl⟩
